import Mathlib

/-!
# IPS patch engine (`src/ips/ips.c`)

A shallow embedding of the three entry points `ips_verify_header`,
`ips_get_size` and `ips_patch` together with the cursor primitives they share.

Modelling conventions
* A byte is a `UInt8`; a buffer is a `List UInt8`; a nullable pointer to a buffer
  is an `Option (List UInt8)`.  The C functions receive the length of every
  buffer as a separate `size_t`; the definitions keep that parameter, and the
  theorems instantiate it with the length of the list.
* `data[i]` is `data.getD i 0`; every access of the code is guarded so that `i`
  is below the size it was given.
* `size_t` values are natural numbers.  Every cursor of the code stays below
  `patch_size + 0x10005` and every destination offset below `2^24 + 2^16`, so no
  `size_t` addition wraps for a buffer that fits in memory.
* `uint16_t` / `uint32_t` results of the multi-byte readers are below `2^16` and
  `2^24` because they are assembled from two or three bytes; the conversion to
  the return type is exact.
* A `while` loop whose trip count is not a loop variable is a function with a
  fuel argument that returns `none` when the fuel runs out; the entry points
  supply `patch_size + 1`, and the totality lemmas show that this is enough.
* The mutable destination is threaded through and returned next to the `bool`.
-/

namespace Ips

/-! ## Constants -/

def PATCH_HEADER_SIZE : Nat := 0x5
def PATCH_MIN_SIZE : Nat := 0x9
def PATCH_MAX_SIZE : Nat := 0x1000000
def EOF_MAGIC : Nat := 0x454F46
def RLE_ENCODING : Nat := 0

/-! ## Cursor primitives -/

/-- One-byte reader: returns the byte and the new cursor. -/
def safe_read (data : List UInt8) (offset size : Nat) : UInt8 × Nat :=
  if offset < size then
    let value := data.getD offset 0
    (value, offset + 1)
  else
    (0, offset)

/-- Two-byte big-endian reader: returns the value and the new cursor. -/
def safe_read2 (data : List UInt8) (offset size : Nat) : Nat × Nat :=
  let offset := offset + 2
  if offset > size then
    (0, offset)
  else
    (((data.getD (offset - 2) 0).toNat <<< 8) ||| (data.getD (offset - 1) 0).toNat, offset)

/-- Three-byte big-endian reader: returns the value and the new cursor. -/
def safe_read3 (data : List UInt8) (offset size : Nat) : Nat × Nat :=
  let offset := offset + 3
  if offset > size then
    (0, offset)
  else
    (((data.getD (offset - 3) 0).toNat <<< 16) ||| ((data.getD (offset - 2) 0).toNat <<< 8)
      ||| (data.getD (offset - 1) 0).toNat, offset)

/-- One-byte writer: returns the new buffer and the new cursor. -/
def safe_write (data : List UInt8) (value : UInt8) (offset size : Nat) : List UInt8 × Nat :=
  if offset < size then
    (data.set offset value, offset + 1)
  else
    (data, offset)

/-! ## Header verification -/

/-- Result of `ips_verify_header`. -/
def ips_verify_header (patch : Option (List UInt8)) (patch_size : Nat) : Bool :=
  match patch with
  | none => false
  | some p =>
    if patch_size < PATCH_HEADER_SIZE then
      false
    else if p.getD 0 0 ≠ 0x50 ∨ p.getD 1 0 ≠ 0x41 ∨ p.getD 2 0 ≠ 0x54 ∨ p.getD 3 0 ≠ 0x43
        ∨ p.getD 4 0 ≠ 0x48 then
      false
    else
      true

/-! ## Output size inference -/

/-- The `while (patch_offset < patch_size)` loop of `ips_get_size`; the result is
the final `output_size`, or `none` when the fuel is used up. -/
def ips_get_size_loop (patch : List UInt8) (patch_size : Nat) : Nat → Nat → Nat → Option Nat
  | 0, _, _ => none
  | fuel + 1, patch_offset, output_size =>
    if patch_offset < patch_size then
      let (offset, patch_offset) := safe_read3 patch patch_offset patch_size
      if offset = EOF_MAGIC then
        some output_size
      else
        let (size, patch_offset) := safe_read2 patch patch_offset patch_size
        let (new_output_size, patch_offset) :=
          if size = RLE_ENCODING then
            let (rle_size, patch_offset) := safe_read2 patch patch_offset patch_size
            (offset + rle_size, patch_offset + 1)
          else
            (offset + size, patch_offset + size)
        let output_size := if new_output_size > output_size then new_output_size else output_size
        ips_get_size_loop patch patch_size fuel patch_offset output_size
    else
      some output_size

/-- Result of `ips_get_size`: the returned `bool` and the value stored in
`*dst_size`; `none` would mean that the scan does not finish. -/
def ips_get_size (patch : List UInt8) (patch_size : Nat) : Option (Bool × Nat) :=
  (ips_get_size_loop patch patch_size (patch_size + 1) PATCH_HEADER_SIZE 0).map
    fun output_size => (true, output_size)

/-! ## Patch application -/

/-- The loop `while (rle_size--)` of the RLE branch: `false` is the early
`return false` of `ASSERT_BOUNDS`. -/
def ips_patch_rle (value : UInt8) (dst_size patch_offset patch_size : Nat) :
    Nat → List UInt8 → Nat → Bool × List UInt8
  | 0, dst, _ => (true, dst)
  | rle_size + 1, dst, offset =>
    if offset ≥ dst_size then
      (false, dst)
    else if patch_offset ≥ patch_size then
      (false, dst)
    else
      let (dst, offset) := safe_write dst value offset dst_size
      ips_patch_rle value dst_size patch_offset patch_size rle_size dst offset

/-- The loop `while (size--)` of the literal branch; it also returns the patch
cursor, which it advances. -/
def ips_patch_literal (patch : List UInt8) (dst_size patch_size : Nat) :
    Nat → List UInt8 → Nat → Nat → Bool × List UInt8 × Nat
  | 0, dst, _, patch_offset => (true, dst, patch_offset)
  | size + 1, dst, offset, patch_offset =>
    if offset ≥ dst_size then
      (false, dst, patch_offset)
    else if patch_offset ≥ patch_size then
      (false, dst, patch_offset)
    else
      let (value, patch_offset) := safe_read patch patch_offset patch_size
      let (dst, offset) := safe_write dst value offset dst_size
      ips_patch_literal patch dst_size patch_size size dst offset patch_offset

/-- The `while (patch_offset < patch_size)` loop of `ips_patch`. -/
def ips_patch_loop (patch : List UInt8) (patch_size dst_size : Nat) :
    Nat → List UInt8 → Nat → Option (Bool × List UInt8)
  | 0, _, _ => none
  | fuel + 1, dst, patch_offset =>
    if patch_offset < patch_size then
      let (offset, patch_offset) := safe_read3 patch patch_offset patch_size
      if offset = EOF_MAGIC then
        some (true, dst)
      else
        let (size, patch_offset) := safe_read2 patch patch_offset patch_size
        if size = RLE_ENCODING then
          let (rle_size, patch_offset) := safe_read2 patch patch_offset patch_size
          let (value, patch_offset) := safe_read patch patch_offset patch_size
          match ips_patch_rle value dst_size patch_offset patch_size rle_size dst offset with
          | (false, dst) => some (false, dst)
          | (true, dst) => ips_patch_loop patch patch_size dst_size fuel dst patch_offset
        else
          match ips_patch_literal patch dst_size patch_size size dst offset patch_offset with
          | (false, dst, _) => some (false, dst)
          | (true, dst, patch_offset) =>
            ips_patch_loop patch patch_size dst_size fuel dst patch_offset
    else
      some (true, dst)

/-- The call `memcpy(dst, src, n)`. -/
def memcpy (dst src : List UInt8) (n : Nat) : List UInt8 :=
  src.take n ++ dst.drop n

/-- Result of `ips_patch`: the returned `bool` and the destination memory after
the call (`none` for a null destination); an outer `none` would mean that the
call does not finish. -/
def ips_patch (dst : Option (List UInt8)) (dst_size : Nat) (src : Option (List UInt8))
    (src_size : Nat) (patch : Option (List UInt8)) (patch_size : Nat) :
    Option (Bool × Option (List UInt8)) :=
  match dst, src, patch with
  | some d, some s, some p =>
    if dst_size = 0 ∨ src_size = 0 then
      some (false, some d)
    else if patch_size < PATCH_MIN_SIZE ∨ patch_size > PATCH_MAX_SIZE then
      some (false, some d)
    else if ¬ ips_verify_header (some p) patch_size then
      some (false, some d)
    else
      let d := if src_size < dst_size then memcpy d s src_size else d
      (ips_patch_loop p patch_size dst_size (patch_size + 1) d PATCH_HEADER_SIZE).map
        fun r => (r.1, some r.2)
  | _, _, _ => some (false, dst)

/-! ## The patch format and the effect of a record, as the specification words them -/

/-- The five header bytes, ASCII "PATCH". -/
def PATCH_MAGIC : List UInt8 := [0x50, 0x41, 0x54, 0x43, 0x48]
/-- The three bytes of the end marker, ASCII "EOF". -/
def EOF_MARKER : List UInt8 := [0x45, 0x4F, 0x46]
/-- Two-byte big-endian field holding `n` (for `n < 2^16`). -/
def be2 (n : Nat) : List UInt8 := [UInt8.ofNat (n / 0x100), UInt8.ofNat n]
/-- Three-byte big-endian field holding `n` (for `n < 2^24`). -/
def be3 (n : Nat) : List UInt8 :=
  [UInt8.ofNat (n / 0x10000), UInt8.ofNat (n / 0x100), UInt8.ofNat n]

/-- A record of the patch stream: a literal record carries its payload, an RLE
record a run length and a fill byte. -/
inductive Record where
  | literal (offset : Nat) (payload : List UInt8)
  | rle (offset run_length : Nat) (fill_value : UInt8)
  deriving DecidableEq

/-- Destination offset of a record. -/
def Record.offset : Record → Nat
  | .literal offset _ => offset
  | .rle offset _ _ => offset

/-- The bytes a record asks to write, in order, starting at its offset. -/
def Record.bytes : Record → List UInt8
  | .literal _ payload => payload
  | .rle _ run_length fill_value => List.replicate run_length fill_value

/-- Record length: the payload length of a literal record, the run length of an
RLE record. -/
def Record.len (r : Record) : Nat := r.bytes.length

/-- Wire encoding of a record: offset, length field, then the payload, or length
field 0, run length and fill byte. -/
def Record.encode : Record → List UInt8
  | .literal offset payload => be3 offset ++ be2 payload.length ++ payload
  | .rle offset run_length fill_value => be3 offset ++ be2 0 ++ be2 run_length ++ [fill_value]

/-- The fields of a record fit their wire fields: a 24-bit offset, a nonzero
16-bit literal length, a 16-bit run length. -/
def Record.WellFormed : Record → Prop
  | .literal offset payload => offset < 0x1000000 ∧ 0 < payload.length ∧ payload.length < 0x10000
  | .rle offset run_length _ => offset < 0x1000000 ∧ run_length < 0x10000

instance (r : Record) : Decidable r.WellFormed := by
  cases r <;> unfold Record.WellFormed <;> infer_instance

/-- Wire encoding of a sequence of records. -/
def encodeAll : List Record → List UInt8
  | [] => []
  | r :: rs => r.encode ++ encodeAll rs

/-- The buffer `dst` with `bytes` written at `offset .. offset + bytes.length - 1`
(meant for `offset + bytes.length ≤ dst.length`, or for no bytes at all). -/
def writeAt (dst : List UInt8) (offset : Nat) (bytes : List UInt8) : List UInt8 :=
  dst.take offset ++ bytes ++ dst.drop (offset + bytes.length)

/-- Every record written over `dst` in record order, later records overwriting
earlier ones. -/
def applyRecords (rs : List Record) (dst : List UInt8) : List UInt8 :=
  rs.foldl (fun d r => writeAt d r.offset r.bytes) dst

/-- The destination after step 1: the whole source copied over its start when
the source is shorter, the destination as supplied otherwise. -/
def seed (dst src : List UInt8) : List UInt8 :=
  if src.length < dst.length then src ++ dst.drop src.length else dst

/-- The running maximum of offset + record length over the records, from 0. -/
def maxEnd (rs : List Record) : Nat :=
  rs.foldl (fun m r => max m (r.offset + r.len)) 0

/-- Writing `bytes` at `offset` one byte at a time, stopping with `false` at the
first byte whose position is outside `dst`; what both inner loops of
`ips_patch` are shown to compute. -/
def writeChecked : List UInt8 → Nat → List UInt8 → Bool × List UInt8
  | dst, _, [] => (true, dst)
  | dst, offset, b :: bs =>
    if offset ≥ dst.length then (false, dst) else writeChecked (dst.set offset b) (offset + 1) bs

/-- The records applied in order with `writeChecked`, stopping at the first
failure; the boolean and the destination `ips_patch` is shown to produce on a
stream of well-formed records. -/
def applyChecked : List Record → List UInt8 → Bool × List UInt8
  | [], dst => (true, dst)
  | r :: rs, dst =>
    match writeChecked dst r.offset r.bytes with
    | (true, d) => applyChecked rs d
    | (false, d) => (false, d)

/-- Every RLE record with a nonzero run length is followed by at least one more
byte of the stream (`rest` is what follows the records). -/
def FollowedUp : List Record → List UInt8 → Prop
  | [], _ => True
  | r :: rs, rest =>
    (∀ o n v, r = Record.rle o n v → n ≠ 0 → encodeAll rs ++ rest ≠ []) ∧ FollowedUp rs rest

/-- The patch made of the header, the records and the end marker. -/
def mkPatch (rs : List Record) : List UInt8 :=
  PATCH_MAGIC ++ encodeAll rs ++ EOF_MARKER

/-- The patch made of the header and the records, with no end marker. -/
def mkPatchOpen (rs : List Record) : List UInt8 :=
  PATCH_MAGIC ++ encodeAll rs

/-- Number of bytes of a record before its payload (literal) or before its fill
byte (RLE): the offset field and the length fields. -/
def Record.headerLen : Record → Nat
  | .literal _ _ => 5
  | .rle _ _ _ => 7

/-- A list of single-byte writes (index, value) applied to a buffer in order. -/
def applyWrites (ws : List (Nat × UInt8)) (dst : List UInt8) : List UInt8 :=
  ws.foldl (fun d w => d.set w.1 w.2) dst

/-! ## Byte-level lemmas -/

theorem toNat_ofNat_byte (n : Nat) : (UInt8.ofNat n).toNat = n % 256 := by
  simp [UInt8.ofNat, UInt8.toNat]

theorem or_shift8 (a b : Nat) (hb : b < 256) : (a <<< 8) ||| b = a * 256 + b := by
  have h := @Nat.mul_add_lt_is_or 8 b (by simpa using hb) a
  rw [Nat.shiftLeft_eq]
  simp only [Nat.reducePow] at h ⊢
  rw [Nat.mul_comm a 256, h]

theorem or_shift16 (a b : Nat) (hb : b < 65536) : (a <<< 16) ||| b = a * 65536 + b := by
  have h := @Nat.mul_add_lt_is_or 16 b (by simpa using hb) a
  rw [Nat.shiftLeft_eq]
  simp only [Nat.reducePow] at h ⊢
  rw [Nat.mul_comm a 65536, h]

theorem decode_be2 (n : Nat) (h : n < 0x10000) :
    ((UInt8.ofNat (n / 0x100)).toNat <<< 8) ||| (UInt8.ofNat n).toNat = n := by
  rw [toNat_ofNat_byte, toNat_ofNat_byte, or_shift8 _ _ (Nat.mod_lt _ (by decide))]
  omega

theorem decode_be3 (n : Nat) (h : n < 0x1000000) :
    ((UInt8.ofNat (n / 0x10000)).toNat <<< 16) ||| ((UInt8.ofNat (n / 0x100)).toNat <<< 8)
      ||| (UInt8.ofNat n).toNat = n := by
  rw [toNat_ofNat_byte, toNat_ofNat_byte, toNat_ofNat_byte, Nat.lor_assoc,
    or_shift8 _ _ (Nat.mod_lt _ (by decide)), or_shift16 _ _ (by omega)]
  omega

theorem getD_of_drop {p l : List UInt8} {po : Nat} (h : p.drop po = l) (i : Nat) (d : UInt8) :
    p.getD (po + i) d = l.getD i d := by
  subst h
  simp [List.getElem?_drop]

theorem length_of_drop {p l : List UInt8} {po : Nat} (h : p.drop po = l) (hl : l ≠ []) :
    po + l.length = p.length := by
  subst h
  have : ¬ p.length ≤ po := fun hle => hl (List.drop_eq_nil_iff.mpr hle)
  simp only [List.length_drop]
  omega

theorem drop_of_drop {p l₁ l₂ : List UInt8} {po : Nat} (h : p.drop po = l₁ ++ l₂) :
    p.drop (po + l₁.length) = l₂ := by
  rw [← List.drop_drop, h, List.drop_left]

theorem safe_read3_at {p rest : List UInt8} {po : Nat} {a b c : UInt8}
    (h : p.drop po = a :: b :: c :: rest) :
    safe_read3 p po p.length = ((a.toNat <<< 16) ||| (b.toNat <<< 8) ||| c.toNat, po + 3) := by
  have hlen := length_of_drop h (by simp)
  have h0 := getD_of_drop h 0 0
  have h1 := getD_of_drop h 1 0
  have h2 := getD_of_drop h 2 0
  simp only [List.length_cons] at hlen
  have hn : ¬ (po + 3 > p.length) := by omega
  simp only [safe_read3, hn, if_false]
  have e3 : po + 3 - 3 = po + 0 := by omega
  have e2 : po + 3 - 2 = po + 1 := by omega
  have e1 : po + 3 - 1 = po + 2 := by omega
  rw [e3, e2, e1, h0, h1, h2]
  rfl

theorem safe_read2_at {p rest : List UInt8} {po : Nat} {a b : UInt8}
    (h : p.drop po = a :: b :: rest) :
    safe_read2 p po p.length = ((a.toNat <<< 8) ||| b.toNat, po + 2) := by
  have hlen := length_of_drop h (by simp)
  have h0 := getD_of_drop h 0 0
  have h1 := getD_of_drop h 1 0
  simp only [List.length_cons] at hlen
  have hn : ¬ (po + 2 > p.length) := by omega
  simp only [safe_read2, hn, if_false]
  have e2 : po + 2 - 2 = po + 0 := by omega
  have e1 : po + 2 - 1 = po + 1 := by omega
  rw [e2, e1, h0, h1]
  rfl

theorem safe_read_at {p rest : List UInt8} {po : Nat} {a : UInt8}
    (h : p.drop po = a :: rest) :
    safe_read p po p.length = (a, po + 1) := by
  have hlen := length_of_drop h (by simp)
  have h0 := getD_of_drop h 0 0
  simp only [List.length_cons] at hlen
  have hn : po < p.length := by omega
  simp only [safe_read, hn, if_true]
  rw [show po = po + 0 by rfl, h0]
  rfl

theorem length_writeChecked (bs : List UInt8) : ∀ (dst : List UInt8) (o : Nat),
    (writeChecked dst o bs).2.length = dst.length := by
  induction bs with
  | nil => intro dst o; rfl
  | cons b bs ih =>
    intro dst o
    unfold writeChecked
    split
    · rfl
    · rw [ih]; simp

theorem writeAt_nil (dst : List UInt8) (o : Nat) : writeAt dst o [] = dst := by
  simp [writeAt]

theorem writeAt_set (dst : List UInt8) (o : Nat) (b : UInt8) (bs : List UInt8)
    (h : o < dst.length) : writeAt (dst.set o b) (o + 1) bs = writeAt dst o (b :: bs) := by
  unfold writeAt
  rw [List.drop_set, if_pos (by omega), List.set_eq_take_append_cons_drop, if_pos h]
  have h1 : (List.take o dst).length = o := by simp; omega
  rw [List.take_append_eq_append_take, List.take_take, h1]
  simp [Nat.add_assoc, Nat.add_comm 1]

theorem writeChecked_eq (bs : List UInt8) : ∀ (dst : List UInt8) (o : Nat),
    writeChecked dst o bs =
      if bs = [] ∨ o + bs.length ≤ dst.length then (true, writeAt dst o bs)
      else (false, writeAt dst o (bs.take (dst.length - o))) := by
  induction bs with
  | nil => intro dst o; simp [writeChecked, writeAt_nil]
  | cons b bs ih =>
    intro dst o
    unfold writeChecked
    by_cases ho : o ≥ dst.length
    · have hn : ¬ (o + (bs.length + 1) ≤ dst.length) := by omega
      have h0 : dst.length - o = 0 := by omega
      simp [ho, hn, h0, writeAt_nil]
    · rw [if_neg ho, ih]
      have hlt : o < dst.length := by omega
      simp only [List.length_set, List.length_cons, reduceCtorEq, false_or]
      by_cases hfit : o + (bs.length + 1) ≤ dst.length
      · have : o + 1 + bs.length ≤ dst.length := by omega
        simp [hfit, this, writeAt_set _ _ _ _ hlt]
      · have h1 : ¬ (o + 1 + bs.length ≤ dst.length) := by omega
        have h2 : bs ≠ [] := by
          intro hb; subst hb; simp at hfit; omega
        have h3 : dst.length - o = (dst.length - (o + 1)) + 1 := by omega
        simp only [hfit, h1, h2, false_or, if_false]
        rw [h3, List.take_succ_cons, writeAt_set _ _ _ _ hlt]

theorem ips_patch_rle_eq (v : UInt8) (dsz po psz : Nat) (hpo : po < psz) (n : Nat) :
    ∀ (dst : List UInt8) (o : Nat), dst.length = dsz →
      ips_patch_rle v dsz po psz n dst o = writeChecked dst o (List.replicate n v) := by
  induction n with
  | zero => intro dst o _; rfl
  | succ n ih =>
    intro dst o hd
    rw [List.replicate_succ]
    unfold ips_patch_rle writeChecked
    by_cases ho : o ≥ dsz
    · simp [ho, hd]
    · have hpo2 : ¬ (po ≥ psz) := by omega
      have ho2 : o < dsz := by omega
      simp only [ho, hpo2, if_false, safe_write, ho2, if_true, hd]
      exact ih _ _ (by simp [hd])

theorem ips_patch_literal_eq (p : List UInt8) (dsz : Nat) (bs : List UInt8) :
    ∀ (rest dst : List UInt8) (o po : Nat), p.drop po = bs ++ rest → dst.length = dsz →
      ∃ po2, ips_patch_literal p dsz p.length bs.length dst o po =
          ((writeChecked dst o bs).1, (writeChecked dst o bs).2, po2)
        ∧ ((writeChecked dst o bs).1 = true → po2 = po + bs.length) := by
  induction bs with
  | nil => intro rest dst o po _ _; exact ⟨po, rfl, fun _ => rfl⟩
  | cons b bs ih =>
    intro rest dst o po hp hd
    have hlen := length_of_drop hp (by simp)
    simp only [List.length_append, List.length_cons] at hlen
    have hrd := safe_read_at (show p.drop po = b :: (bs ++ rest) from hp)
    have hp2 : p.drop (po + 1) = bs ++ rest :=
      drop_of_drop (show p.drop po = [b] ++ (bs ++ rest) from hp)
    simp only [List.length_cons]
    unfold ips_patch_literal writeChecked
    by_cases ho : o ≥ dsz
    · refine ⟨po, ?_, ?_⟩
      · simp [ho, hd]
      · simp [ho, hd]
    · have hpo2 : ¬ (po ≥ p.length) := by omega
      have ho2 : o < dsz := by omega
      obtain ⟨po2, h1, h2⟩ := ih rest (dst.set o b) (o + 1) (po + 1) hp2 (by simp [hd])
      refine ⟨po2, ?_, ?_⟩
      · simp only [ho, hpo2, if_false, hrd, safe_write, ho2, if_true, hd]
        exact h1
      · simp only [hd, ho, if_false]
        intro h
        rw [h2 h]; omega

theorem length_encode_literal (o : Nat) (pl : List UInt8) :
    (Record.literal o pl).encode.length = 5 + pl.length := by
  simp [Record.encode, be3, be2]; omega

theorem length_encode_rle (o n : Nat) (v : UInt8) : (Record.rle o n v).encode.length = 8 := by
  simp [Record.encode, be3, be2]

theorem read_literal_header {p rest pl : List UInt8} {po o : Nat}
    (h : p.drop po = (Record.literal o pl).encode ++ rest)
    (ho : o < 0x1000000) (hl : pl.length < 0x10000) :
    safe_read3 p po p.length = (o, po + 3) ∧ safe_read2 p (po + 3) p.length = (pl.length, po + 5)
      ∧ p.drop (po + 5) = pl ++ rest := by
  simp only [Record.encode, be3, be2, List.cons_append, List.nil_append, List.append_assoc] at h
  have h3 := safe_read3_at h
  rw [decode_be3 o ho] at h3
  have hd3 := drop_of_drop (show p.drop po = [_, _, _] ++ _ from h)
  simp only [List.length_cons, List.length_nil] at hd3
  have h2 := safe_read2_at hd3
  rw [decode_be2 _ hl] at h2
  have hd5 := drop_of_drop (show p.drop (po + 3) = [_, _] ++ _ from hd3)
  exact ⟨h3, h2, hd5⟩

theorem read_rle_header {p rest : List UInt8} {po o n : Nat} {v : UInt8}
    (h : p.drop po = (Record.rle o n v).encode ++ rest)
    (ho : o < 0x1000000) (hn : n < 0x10000) :
    safe_read3 p po p.length = (o, po + 3) ∧ safe_read2 p (po + 3) p.length = (0, po + 5)
      ∧ safe_read2 p (po + 5) p.length = (n, po + 7) ∧ safe_read p (po + 7) p.length = (v, po + 8)
      ∧ p.drop (po + 8) = rest := by
  simp only [Record.encode, be3, be2, List.cons_append, List.nil_append, List.append_assoc] at h
  have h3 := safe_read3_at h
  rw [decode_be3 o ho] at h3
  have hd3 := drop_of_drop (show p.drop po = [_, _, _] ++ _ from h)
  simp only [List.length_cons, List.length_nil] at hd3
  have h2 := safe_read2_at hd3
  rw [decode_be2 0 (by decide)] at h2
  have hd5 := drop_of_drop (show p.drop (po + 3) = [_, _] ++ _ from hd3)
  simp only [List.length_cons, List.length_nil] at hd5
  have h2b := safe_read2_at hd5
  rw [decode_be2 _ hn] at h2b
  have hd7 := drop_of_drop (show p.drop (po + 3 + 2) = [_, _] ++ _ from hd5)
  simp only [List.length_cons, List.length_nil] at hd7
  have h1 := safe_read_at hd7
  have hd8 := drop_of_drop (show p.drop (po + 3 + 2 + 2) = [_] ++ _ from hd7)
  exact ⟨h3, h2, h2b, h1, hd8⟩

/-- One turn of the application loop on a well-formed record. -/
theorem ips_patch_loop_record {p rest dst : List UInt8} {po dsz : Nat} (fuel : Nat) (r : Record)
    (h : p.drop po = r.encode ++ rest) (hwf : r.WellFormed) (hne : r.offset ≠ EOF_MAGIC)
    (hmore : ∀ o n v, r = Record.rle o n v → n ≠ 0 → rest ≠ []) (hd : dst.length = dsz) :
    ips_patch_loop p p.length dsz (fuel + 1) dst po =
      match writeChecked dst r.offset r.bytes with
      | (true, d) => ips_patch_loop p p.length dsz fuel d (po + r.encode.length)
      | (false, d) => some (false, d) := by
  cases r with
  | literal o pl =>
    have hlen := length_of_drop h (by simp [Record.encode, be3])
    rw [List.length_append, length_encode_literal] at hlen
    have hlt : po < p.length := by omega
    obtain ⟨ho, hl0, hl⟩ := hwf
    obtain ⟨h3, h2, hd5⟩ := read_literal_header h ho hl
    obtain ⟨po2, e1, e2⟩ := ips_patch_literal_eq p dsz pl rest dst o (po + 5) hd5 hd
    have hne2 : ¬ (o = EOF_MAGIC) := hne
    have hsz : ¬ (pl.length = RLE_ENCODING) := by unfold RLE_ENCODING; omega
    rw [ips_patch_loop]
    simp only [hlt, if_true, h3, hne2, if_false, h2, hsz, e1, Record.offset, Record.bytes,
      length_encode_literal]
    cases hw : writeChecked dst o pl with
    | mk ok d =>
      cases ok
      · rfl
      · have := e2 (by rw [hw])
        simp only [this]
        rw [show po + (5 + pl.length) = po + 5 + pl.length by omega]
  | rle o n v =>
    have hlen := length_of_drop h (by simp [Record.encode, be3])
    rw [List.length_append, length_encode_rle] at hlen
    have hlt : po < p.length := by omega
    obtain ⟨ho, hn⟩ := hwf
    obtain ⟨h3, h2, h2b, h1, hd8⟩ := read_rle_header h ho hn
    have hne2 : ¬ (o = EOF_MAGIC) := hne
    rw [ips_patch_loop]
    simp only [hlt, if_true, h3, hne2, if_false, h2, RLE_ENCODING, h2b, h1, Record.offset,
      Record.bytes, length_encode_rle]
    by_cases hn0 : n = 0
    · subst hn0
      simp [ips_patch_rle, writeChecked]
    · have hr : rest ≠ [] := hmore o n v rfl hn0
      have hl8 := length_of_drop hd8 hr
      have hpos : 0 < rest.length := List.length_pos.mpr hr
      rw [ips_patch_rle_eq v dsz (po + 8) p.length (by omega) n dst o hd]
      cases hw : writeChecked dst o (List.replicate n v) with
      | mk ok d => cases ok <;> rfl

theorem followedUp_of_ne_nil (rest : List UInt8) (h : rest ≠ []) :
    ∀ rs : List Record, FollowedUp rs rest := by
  intro rs
  induction rs with
  | nil => trivial
  | cons r rs ih => exact ⟨fun _ _ _ _ _ => by simp [h], ih⟩

/-- The application loop on a run of well-formed records, followed by `rest`. -/
theorem ips_patch_loop_records {p : List UInt8} {dsz : Nat} (fuel : Nat) :
    ∀ (rs : List Record) (rest dst : List UInt8) (po : Nat),
      p.drop po = encodeAll rs ++ rest →
      (∀ r ∈ rs, r.WellFormed ∧ r.offset ≠ EOF_MAGIC) → FollowedUp rs rest →
      dst.length = dsz →
      ips_patch_loop p p.length dsz (fuel + rs.length) dst po =
        match applyChecked rs dst with
        | (true, d) => ips_patch_loop p p.length dsz fuel d (po + (encodeAll rs).length)
        | (false, d) => some (false, d) := by
  intro rs
  induction rs with
  | nil => intro rest dst po _ _ _ _; simp [applyChecked, encodeAll]
  | cons r rs ih =>
    intro rest dst po h hwf hfu hd
    have hr := hwf r (List.mem_cons_self _ _)
    have h2 : p.drop po = r.encode ++ (encodeAll rs ++ rest) := by
      rw [h, encodeAll, List.append_assoc]
    rw [List.length_cons, ← Nat.add_assoc,
      ips_patch_loop_record (fuel + rs.length) r h2 hr.1 hr.2 hfu.1 hd]
    simp only [applyChecked]
    have hlenw := length_writeChecked r.bytes dst r.offset
    cases hw : writeChecked dst r.offset r.bytes with
    | mk ok d =>
      rw [hw] at hlenw
      cases ok
      · rfl
      · simp only
        rw [ih rest d (po + r.encode.length) (drop_of_drop h2)
          (fun x hx => hwf x (List.mem_cons_of_mem _ hx)) hfu.2 (by rw [← hd]; exact hlenw)]
        simp only [encodeAll, List.length_append, Nat.add_assoc]

theorem ips_patch_loop_end {p : List UInt8} {po : Nat} (dsz fuel : Nat) (dst : List UInt8)
    (h : p.drop po = []) : ips_patch_loop p p.length dsz (fuel + 1) dst po = some (true, dst) := by
  have : ¬ (po < p.length) := by
    have := List.drop_eq_nil_iff.mp h
    omega
  rw [ips_patch_loop]
  simp [this]

theorem ips_patch_loop_eof {p tail : List UInt8} {po : Nat} (dsz fuel : Nat) (dst : List UInt8)
    (h : p.drop po = EOF_MARKER ++ tail) :
    ips_patch_loop p p.length dsz (fuel + 1) dst po = some (true, dst) := by
  have hlen := length_of_drop h (by simp [EOF_MARKER])
  simp only [EOF_MARKER, List.cons_append, List.nil_append, List.length_cons] at h hlen
  have h3 := safe_read3_at h
  have hlt : po < p.length := by omega
  rw [ips_patch_loop]
  simp only [hlt, if_true, h3]
  rfl

/-- One turn of the size scan on a well-formed record. -/
theorem ips_get_size_loop_record {p rest : List UInt8} {po : Nat} (fuel out : Nat) (r : Record)
    (h : p.drop po = r.encode ++ rest) (hwf : r.WellFormed) (hne : r.offset ≠ EOF_MAGIC) :
    ips_get_size_loop p p.length (fuel + 1) po out =
      ips_get_size_loop p p.length fuel (po + r.encode.length) (max out (r.offset + r.len)) := by
  cases r with
  | literal o pl =>
    have hlen := length_of_drop h (by simp [Record.encode, be3])
    rw [List.length_append, length_encode_literal] at hlen
    have hlt : po < p.length := by omega
    obtain ⟨ho, hl0, hl⟩ := hwf
    obtain ⟨h3, h2, _⟩ := read_literal_header h ho hl
    have hne2 : ¬ (o = EOF_MAGIC) := hne
    have hsz : ¬ (pl.length = RLE_ENCODING) := by unfold RLE_ENCODING; omega
    rw [ips_get_size_loop]
    simp only [hlt, if_true, h3, hne2, if_false, h2, hsz, Record.offset, Record.len, Record.bytes,
      length_encode_literal]
    congr 1
    · omega
    · split <;> omega
  | rle o n v =>
    have hlen := length_of_drop h (by simp [Record.encode, be3])
    rw [List.length_append, length_encode_rle] at hlen
    have hlt : po < p.length := by omega
    obtain ⟨ho, hn⟩ := hwf
    obtain ⟨h3, h2, h2b, _, _⟩ := read_rle_header h ho hn
    have hne2 : ¬ (o = EOF_MAGIC) := hne
    rw [ips_get_size_loop]
    simp only [hlt, if_true, h3, hne2, if_false, h2, RLE_ENCODING, h2b, Record.offset, Record.len,
      Record.bytes, length_encode_rle, List.length_replicate]
    congr 1
    split <;> omega

/-- The size scan on a run of well-formed records, followed by `rest`. -/
theorem ips_get_size_loop_records {p : List UInt8} (fuel : Nat) :
    ∀ (rs : List Record) (rest : List UInt8) (po out : Nat),
      p.drop po = encodeAll rs ++ rest →
      (∀ r ∈ rs, r.WellFormed ∧ r.offset ≠ EOF_MAGIC) →
      ips_get_size_loop p p.length (fuel + rs.length) po out =
        ips_get_size_loop p p.length fuel (po + (encodeAll rs).length)
          (rs.foldl (fun m r => max m (r.offset + r.len)) out) := by
  intro rs
  induction rs with
  | nil => intro rest po out _ _; simp [encodeAll]
  | cons r rs ih =>
    intro rest po out h hwf
    have hr := hwf r (List.mem_cons_self _ _)
    have h2 : p.drop po = r.encode ++ (encodeAll rs ++ rest) := by
      rw [h, encodeAll, List.append_assoc]
    rw [List.length_cons, ← Nat.add_assoc,
      ips_get_size_loop_record (fuel + rs.length) out r h2 hr.1 hr.2,
      ih rest (po + r.encode.length) _ (drop_of_drop h2)
        (fun x hx => hwf x (List.mem_cons_of_mem _ hx))]
    simp only [encodeAll, List.length_append, Nat.add_assoc, List.foldl_cons]

theorem ips_get_size_loop_end {p : List UInt8} {po : Nat} (fuel out : Nat)
    (h : p.drop po = []) : ips_get_size_loop p p.length (fuel + 1) po out = some out := by
  have : ¬ (po < p.length) := by
    have := List.drop_eq_nil_iff.mp h
    omega
  rw [ips_get_size_loop]
  simp [this]

theorem ips_get_size_loop_eof {p tail : List UInt8} {po : Nat} (fuel out : Nat)
    (h : p.drop po = EOF_MARKER ++ tail) :
    ips_get_size_loop p p.length (fuel + 1) po out = some out := by
  have hlen := length_of_drop h (by simp [EOF_MARKER])
  simp only [EOF_MARKER, List.cons_append, List.nil_append, List.length_cons] at h hlen
  have h3 := safe_read3_at h
  have hlt : po < p.length := by omega
  rw [ips_get_size_loop]
  simp only [hlt, if_true, h3]
  rfl

/-- Each record takes at least one byte of the stream. -/
theorem length_le_length_encodeAll (rs : List Record) : rs.length ≤ (encodeAll rs).length := by
  induction rs with
  | nil => simp [encodeAll]
  | cons r rs ih =>
    cases r
    · simp only [encodeAll, List.length_append, length_encode_literal, List.length_cons]; omega
    · simp only [encodeAll, List.length_append, length_encode_rle, List.length_cons]; omega

/-- The size scan of a stream of well-formed records, ended by nothing or by the
end marker and anything after it. -/
theorem ips_get_size_stream (rs : List Record) (stop : List UInt8)
    (hwf : ∀ r ∈ rs, r.WellFormed ∧ r.offset ≠ EOF_MAGIC)
    (hstop : stop = [] ∨ ∃ tail, stop = EOF_MARKER ++ tail) :
    ips_get_size (PATCH_MAGIC ++ encodeAll rs ++ stop) (PATCH_MAGIC ++ encodeAll rs ++ stop).length
      = some (true, maxEnd rs) := by
  generalize hp : PATCH_MAGIC ++ encodeAll rs ++ stop = p
  have hdrop : p.drop PATCH_HEADER_SIZE = encodeAll rs ++ stop := by
    rw [← hp, List.append_assoc]
    exact List.drop_left' rfl
  have hlen : p.length = 5 + (encodeAll rs).length + stop.length := by
    rw [← hp]; simp [PATCH_MAGIC]; omega
  have hrs := length_le_length_encodeAll rs
  obtain ⟨f, hf⟩ : ∃ f, p.length + 1 = (f + 1) + rs.length := ⟨p.length - rs.length, by omega⟩
  unfold ips_get_size
  rw [hf, ips_get_size_loop_records (f + 1) rs stop _ 0 hdrop hwf]
  have hd2 := drop_of_drop hdrop
  rcases hstop with h0 | ⟨tail, ht⟩
  · rw [h0] at hd2
    rw [ips_get_size_loop_end f _ hd2]
    rfl
  · rw [ht] at hd2
    rw [ips_get_size_loop_eof f _ hd2]
    rfl

theorem foldl_max_ge (rs : List Record) : ∀ m : Nat,
    m ≤ rs.foldl (fun m r => max m (r.offset + r.len)) m
      ∧ ∀ r ∈ rs, r.offset + r.len ≤ rs.foldl (fun m r => max m (r.offset + r.len)) m := by
  induction rs with
  | nil => intro m; simp
  | cons a rs ih =>
    intro m
    obtain ⟨h1, h2⟩ := ih (max m (a.offset + a.len))
    simp only [List.foldl_cons, List.mem_cons]
    refine ⟨by omega, ?_⟩
    rintro r (rfl | hr)
    · omega
    · exact h2 r hr

theorem foldl_max_attained (rs : List Record) : ∀ m : Nat,
    rs.foldl (fun m r => max m (r.offset + r.len)) m = m
      ∨ ∃ r ∈ rs, rs.foldl (fun m r => max m (r.offset + r.len)) m = r.offset + r.len := by
  induction rs with
  | nil => intro m; simp
  | cons a rs ih =>
    intro m
    simp only [List.foldl_cons, List.mem_cons]
    rcases ih (max m (a.offset + a.len)) with h | ⟨r, hr, h⟩
    · rw [h]
      rcases Nat.le_total m (a.offset + a.len) with hle | hle
      · right; exact ⟨a, Or.inl rfl, by omega⟩
      · left; omega
    · right; exact ⟨r, Or.inr hr, h⟩

theorem le_maxEnd {rs : List Record} {r : Record} (h : r ∈ rs) : r.offset + r.len ≤ maxEnd rs :=
  (foldl_max_ge rs 0).2 r h

theorem maxEnd_attained {rs : List Record} (h : rs ≠ []) :
    ∃ r ∈ rs, maxEnd rs = r.offset + r.len := by
  rcases foldl_max_attained rs 0 with h0 | h1
  · cases rs with
    | nil => exact absurd rfl h
    | cons a rs =>
      refine ⟨a, List.mem_cons_self _ _, ?_⟩
      have := le_maxEnd (List.mem_cons_self a rs)
      unfold maxEnd at this ⊢
      omega
  · exact h1

theorem length_writeAt (dst : List UInt8) (o : Nat) (bs : List UInt8)
    (h : bs = [] ∨ o + bs.length ≤ dst.length) : (writeAt dst o bs).length = dst.length := by
  have := length_writeChecked bs dst o
  rw [writeChecked_eq, if_pos h] at this
  exact this

/-- When every record fits, the checked application succeeds with the plain one. -/
theorem applyChecked_fit (rs : List Record) : ∀ dst : List UInt8,
    (∀ r ∈ rs, r.len = 0 ∨ r.offset + r.len ≤ dst.length) →
    applyChecked rs dst = (true, applyRecords rs dst) := by
  induction rs with
  | nil => intro dst _; rfl
  | cons r rs ih =>
    intro dst h
    have hr : r.bytes = [] ∨ r.offset + r.bytes.length ≤ dst.length := by
      rcases h r (List.mem_cons_self _ _) with h0 | h1
      · left; exact List.length_eq_zero.mp h0
      · right; exact h1
    simp only [applyChecked, writeChecked_eq, if_pos hr, applyRecords, List.foldl_cons]
    rw [ih]
    · rfl
    · intro x hx
      rw [length_writeAt _ _ _ hr]
      exact h x (List.mem_cons_of_mem _ hx)

/-- When a record with at least one byte does not fit, the checked application fails. -/
theorem applyChecked_overflow (rs : List Record) : ∀ dst : List UInt8,
    (∃ r ∈ rs, r.len ≠ 0 ∧ dst.length < r.offset + r.len) →
    (applyChecked rs dst).1 = false := by
  induction rs with
  | nil => intro dst h; simp at h
  | cons a rs ih =>
    intro dst h
    simp only [applyChecked]
    have hlenw := length_writeChecked a.bytes dst a.offset
    cases hw : writeChecked dst a.offset a.bytes with
    | mk ok d =>
      rw [hw] at hlenw
      cases ok
      · rfl
      · simp only
        apply ih
        obtain ⟨r, hr, h0, h1⟩ := h
        rcases List.mem_cons.mp hr with rfl | hr2
        · exfalso
          rw [writeChecked_eq] at hw
          have hn : ¬ (r.bytes = [] ∨ r.offset + r.bytes.length ≤ dst.length) := by
            rintro (hb | hb)
            · exact h0 (by rw [Record.len, hb]; rfl)
            · unfold Record.len at h1; omega
          rw [if_neg hn] at hw
          cases hw
        · exact ⟨r, hr2, h0, by rw [hlenw]; exact h1⟩

theorem ips_verify_header_magic (x : List UInt8) (n : Nat) (h : 5 ≤ n) :
    ips_verify_header (some (PATCH_MAGIC ++ x)) n = true := by
  have hn : ¬ (n < PATCH_HEADER_SIZE) := by unfold PATCH_HEADER_SIZE; omega
  simp only [ips_verify_header, hn, if_false]
  rfl

/-- The application of a stream of well-formed records, ended by nothing or by
the end marker and anything after it. -/
theorem ips_patch_stream (dst src : List UInt8) (rs : List Record) (stop : List UInt8)
    (hd : dst ≠ []) (hs : src ≠ [])
    (hmin : 9 ≤ (PATCH_MAGIC ++ encodeAll rs ++ stop).length)
    (hmax : (PATCH_MAGIC ++ encodeAll rs ++ stop).length ≤ 0x1000000)
    (hwf : ∀ r ∈ rs, r.WellFormed ∧ r.offset ≠ EOF_MAGIC)
    (hstop : stop = [] ∨ ∃ tail, stop = EOF_MARKER ++ tail)
    (hfu : FollowedUp rs stop) :
    ips_patch (some dst) dst.length (some src) src.length
        (some (PATCH_MAGIC ++ encodeAll rs ++ stop)) (PATCH_MAGIC ++ encodeAll rs ++ stop).length
      = some ((applyChecked rs (seed dst src)).1, some (applyChecked rs (seed dst src)).2) := by
  have hv := ips_verify_header_magic (encodeAll rs ++ stop)
    (PATCH_MAGIC ++ encodeAll rs ++ stop).length (by omega)
  rw [← List.append_assoc] at hv
  generalize hp : PATCH_MAGIC ++ encodeAll rs ++ stop = p at hmin hmax hv
  have hdrop : p.drop PATCH_HEADER_SIZE = encodeAll rs ++ stop := by
    rw [← hp, List.append_assoc]
    exact List.drop_left' rfl
  have hlen : p.length = 5 + (encodeAll rs).length + stop.length := by
    rw [← hp]; simp [PATCH_MAGIC]; omega
  have hrs := length_le_length_encodeAll rs
  obtain ⟨f, hf⟩ : ∃ f, p.length + 1 = (f + 1) + rs.length := ⟨p.length - rs.length, by omega⟩
  have hd0 : ¬ (dst.length = 0 ∨ src.length = 0) := by
    simp only [List.length_eq_zero]; tauto
  have hsz : ¬ (p.length < PATCH_MIN_SIZE ∨ p.length > PATCH_MAX_SIZE) := by
    unfold PATCH_MIN_SIZE PATCH_MAX_SIZE; omega
  have hseed : (if src.length < dst.length then memcpy dst src src.length else dst) = seed dst src := by
    simp [seed, memcpy]
  have hseedlen : (seed dst src).length = dst.length := by
    unfold seed
    split
    · simp; omega
    · rfl
  unfold ips_patch
  simp only [hd0, hsz, hv, if_false, not_true_eq_false, hseed]
  rw [hf, ips_patch_loop_records (f + 1) rs stop _ _ hdrop hwf hfu hseedlen]
  have hd2 := drop_of_drop hdrop
  cases hw : applyChecked rs (seed dst src) with
  | mk ok d =>
    cases ok
    · rfl
    · simp only
      rcases hstop with h0 | ⟨tail, ht⟩
      · rw [h0] at hd2
        rw [ips_patch_loop_end _ f _ hd2]
        rfl
      · rw [ht] at hd2
        rw [ips_patch_loop_eof _ f _ hd2]
        rfl

theorem length_seed (dst src : List UInt8) : (seed dst src).length = dst.length := by
  unfold seed
  split
  · simp; omega
  · rfl

theorem followedUp_marker (rs : List Record) : FollowedUp rs EOF_MARKER :=
  followedUp_of_ne_nil EOF_MARKER (by simp [EOF_MARKER]) rs

theorem ips_verify_header_eq_true_iff (patch : Option (List UInt8)) (n : Nat) :
    ips_verify_header patch n = true ↔ ∃ p, patch = some p ∧ 5 ≤ n ∧ p.take 5 = PATCH_MAGIC := by
  cases patch with
  | none => simp [ips_verify_header]
  | some p =>
    by_cases hn : n < 5
    · have : ¬ (5 ≤ n) := by omega
      simp [ips_verify_header, PATCH_HEADER_SIZE, hn, this]
    · have h5 : 5 ≤ n := by omega
      rcases p with _ | ⟨a, _ | ⟨b, _ | ⟨c, _ | ⟨d, _ | ⟨e, t⟩⟩⟩⟩⟩ <;>
        simp [ips_verify_header, PATCH_HEADER_SIZE, hn, h5, PATCH_MAGIC]

theorem be3_magic : be3 EOF_MAGIC = EOF_MARKER := by decide

/-- A patch with arbitrary well-formed records reads as the records before the
first offset equal to 0x454F46, the end marker, and ignored bytes. -/
theorem mkPatch_split (rs : List Record) :
    ∃ (rs1 : List Record) (tail : List UInt8),
      (∀ r ∈ rs1, r ∈ rs ∧ r.offset ≠ EOF_MAGIC)
        ∧ encodeAll rs ++ EOF_MARKER = encodeAll rs1 ++ (EOF_MARKER ++ tail) := by
  induction rs with
  | nil => exact ⟨[], [], by simp, by simp [encodeAll]⟩
  | cons a rs ih =>
    by_cases ha : a.offset = EOF_MAGIC
    · cases a with
      | literal o pl =>
        simp only [Record.offset] at ha
        refine ⟨[], be2 pl.length ++ pl ++ encodeAll rs ++ EOF_MARKER, by simp, ?_⟩
        simp only [encodeAll, Record.encode, ha, be3_magic, List.append_assoc, List.nil_append]
      | rle o n v =>
        simp only [Record.offset] at ha
        refine ⟨[], be2 0 ++ be2 n ++ [v] ++ encodeAll rs ++ EOF_MARKER, by simp, ?_⟩
        simp only [encodeAll, Record.encode, ha, be3_magic, List.append_assoc, List.nil_append]
    · obtain ⟨rs1, tail, h1, h2⟩ := ih
      refine ⟨a :: rs1, tail, ?_, ?_⟩
      · intro r hr
        rcases List.mem_cons.mp hr with rfl | hr2
        · exact ⟨List.mem_cons_self _ _, ha⟩
        · exact ⟨List.mem_cons_of_mem _ (h1 r hr2).1, (h1 r hr2).2⟩
      · simp only [encodeAll, List.append_assoc, h2]

theorem getElem?_writeAt (dst : List UInt8) (o : Nat) (bs : List UInt8) (i : Nat)
    (h : o + bs.length ≤ dst.length) :
    (writeAt dst o bs)[i]? =
      if i < o then dst[i]? else if i < o + bs.length then bs[i - o]? else dst[i]? := by
  unfold writeAt
  have hlt : (List.take o dst).length = o := by simp; omega
  by_cases h1 : i < o
  · simp [List.getElem?_append, List.getElem?_take, hlt, h1]
  · by_cases h2 : i < o + bs.length
    · have h3 : i - o < bs.length := by omega
      simp [List.getElem?_append, hlt, h1, h2, h3]
    · have h3 : ¬ (i - o < bs.length) := by omega
      have h4 : ¬ (i < o + bs.length) := h2
      simp only [List.getElem?_append, List.length_append, hlt, h1, h4, h3, if_false,
        List.getElem?_drop, List.append_assoc]
      congr 1
      omega

theorem getElem?_seed (dst src : List UInt8) (i : Nat) :
    (seed dst src)[i]? = if src.length < dst.length ∧ i < src.length then src[i]? else dst[i]? := by
  unfold seed
  by_cases h : src.length < dst.length
  · by_cases hi : i < src.length
    · simp [h, hi, List.getElem?_append]
    · simp only [h, hi, if_true, and_false, if_false, List.getElem?_append, List.getElem?_drop]
      congr 1
      omega
  · simp [h]

theorem seed_of_le (dst src : List UInt8) (h : dst.length ≤ src.length) : seed dst src = dst := by
  unfold seed
  rw [if_neg (by omega)]

/-- A patch whose first three bytes after the header are the end marker leaves
the seeded destination as it is, whatever follows the marker. -/
theorem ips_patch_marker_first (dst src tail : List UInt8) (hd : dst ≠ []) (hs : src ≠ [])
    (hmin : 9 ≤ (PATCH_MAGIC ++ EOF_MARKER ++ tail).length)
    (hmax : (PATCH_MAGIC ++ EOF_MARKER ++ tail).length ≤ 0x1000000) :
    ips_patch (some dst) dst.length (some src) src.length
        (some (PATCH_MAGIC ++ EOF_MARKER ++ tail)) (PATCH_MAGIC ++ EOF_MARKER ++ tail).length
      = some (true, some (seed dst src)) := by
  have hp : PATCH_MAGIC ++ EOF_MARKER ++ tail
      = PATCH_MAGIC ++ encodeAll [] ++ (EOF_MARKER ++ tail) := by
    simp [encodeAll]
  rw [hp] at hmin hmax ⊢
  rw [ips_patch_stream dst src [] _ hd hs hmin hmax (by simp) (Or.inr ⟨_, rfl⟩) trivial]
  rfl

theorem length_applyChecked (rs : List Record) : ∀ dst : List UInt8,
    (applyChecked rs dst).2.length = dst.length := by
  induction rs with
  | nil => intro dst; rfl
  | cons a rs ih =>
    intro dst
    simp only [applyChecked]
    have hlenw := length_writeChecked a.bytes dst a.offset
    cases hw : writeChecked dst a.offset a.bytes with
    | mk ok d =>
      rw [hw] at hlenw
      cases ok
      · exact hlenw
      · simp only
        rw [ih]
        exact hlenw

theorem encodeAll_ne_nil {rs : List Record} (h : rs ≠ []) : encodeAll rs ≠ [] := by
  intro he
  have h1 := length_le_length_encodeAll rs
  rw [he] at h1
  exact h (List.length_eq_zero.mp (by simpa using h1))

theorem followedUp_nil_of_last (rs : List Record)
    (hlast : ∀ o n v, rs.getLast? = some (Record.rle o n v) → n = 0) : FollowedUp rs [] := by
  induction rs with
  | nil => trivial
  | cons a rs ih =>
    cases rs with
    | nil =>
      refine ⟨?_, trivial⟩
      intro o n v ha hn
      exact absurd (hlast o n v (by rw [ha]; rfl)) hn
    | cons b rs =>
      refine ⟨?_, ih ?_⟩
      · intro o n v _ _
        rw [List.append_nil]
        exact encodeAll_ne_nil (by simp)
      · intro o n v h
        exact hlast o n v (by rw [List.getLast?_cons_cons]; exact h)

theorem safe_read3_snd (d : List UInt8) (o s : Nat) : (safe_read3 d o s).2 = o + 3 := by
  unfold safe_read3
  simp only
  split <;> rfl

theorem safe_read2_snd (d : List UInt8) (o s : Nat) : (safe_read2 d o s).2 = o + 2 := by
  unfold safe_read2
  simp only
  split <;> rfl

theorem safe_read_snd_ge (d : List UInt8) (o s : Nat) : o ≤ (safe_read d o s).2 := by
  unfold safe_read
  split
  · exact Nat.le_succ o
  · exact Nat.le_refl o

theorem ips_patch_literal_cursor_ge (p : List UInt8) (dsz psz : Nat) (n : Nat) :
    ∀ (dst : List UInt8) (o po : Nat), po ≤ (ips_patch_literal p dsz psz n dst o po).2.2 := by
  induction n with
  | zero => intro dst o po; exact Nat.le_refl po
  | succ n ih =>
    intro dst o po
    unfold ips_patch_literal
    split
    · exact Nat.le_refl po
    · split
      · exact Nat.le_refl po
      · exact Nat.le_trans (safe_read_snd_ge p po psz) (ih _ _ _)

/-- The size scan finishes: with fuel above the number of bytes left it returns
a size. -/
theorem ips_get_size_loop_isSome (p : List UInt8) (psz : Nat) (fuel : Nat) :
    ∀ po out : Nat, psz - po < fuel → (ips_get_size_loop p psz fuel po out).isSome = true := by
  induction fuel with
  | zero => intro po out h; omega
  | succ fuel ih =>
    intro po out h
    rw [ips_get_size_loop]
    by_cases hlt : po < psz
    · rw [if_pos hlt]
      have e3 := safe_read3_snd p po psz
      rcases h3 : safe_read3 p po psz with ⟨offset, po1⟩
      rw [h3] at e3
      simp only at e3 ⊢
      split
      · rfl
      · have e2 := safe_read2_snd p po1 psz
        rcases h2 : safe_read2 p po1 psz with ⟨size, po2⟩
        rw [h2] at e2
        simp only at e2 ⊢
        split
        · have e2b := safe_read2_snd p po2 psz
          rcases h2b : safe_read2 p po2 psz with ⟨rle_size, po3⟩
          rw [h2b] at e2b
          simp only at e2b ⊢
          exact ih _ _ (by omega)
        · exact ih _ _ (by omega)
    · rw [if_neg hlt]
      rfl

/-- The application loop finishes: with fuel above the number of bytes left it
returns a result. -/
theorem ips_patch_loop_isSome (p : List UInt8) (psz dsz : Nat) (fuel : Nat) :
    ∀ (dst : List UInt8) (po : Nat), psz - po < fuel →
      (ips_patch_loop p psz dsz fuel dst po).isSome = true := by
  induction fuel with
  | zero => intro dst po h; omega
  | succ fuel ih =>
    intro dst po h
    rw [ips_patch_loop]
    by_cases hlt : po < psz
    · rw [if_pos hlt]
      have e3 := safe_read3_snd p po psz
      rcases h3 : safe_read3 p po psz with ⟨offset, po1⟩
      rw [h3] at e3
      simp only at e3 ⊢
      split
      · rfl
      · have e2 := safe_read2_snd p po1 psz
        rcases h2 : safe_read2 p po1 psz with ⟨size, po2⟩
        rw [h2] at e2
        simp only at e2 ⊢
        split
        · have e2b := safe_read2_snd p po2 psz
          rcases h2b : safe_read2 p po2 psz with ⟨rle_size, po3⟩
          rw [h2b] at e2b
          have e1 := safe_read_snd_ge p po3 psz
          rcases h1 : safe_read p po3 psz with ⟨value, po4⟩
          rw [h1] at e1
          simp only at e2b e1 ⊢
          split
          · rfl
          · exact ih _ _ (by omega)
        · have el := ips_patch_literal_cursor_ge p dsz psz size dst offset po2
          split
          · rfl
          · rename_i hl
            rw [hl] at el
            simp only at el
            exact ih _ _ (by omega)
    · rw [if_neg hlt]
      rfl

/-- `ips_get_size` returns on every input, and what it returns is success. -/
theorem ips_get_size_total (p : List UInt8) (psz : Nat) :
    ∃ n, ips_get_size p psz = some (true, n) := by
  have h := ips_get_size_loop_isSome p psz (psz + 1) PATCH_HEADER_SIZE 0 (by omega)
  obtain ⟨n, hn⟩ := Option.isSome_iff_exists.mp h
  exact ⟨n, by unfold ips_get_size; rw [hn]; rfl⟩

/-- `ips_patch` returns on every input. -/
theorem ips_patch_total (dst : Option (List UInt8)) (dst_size : Nat) (src : Option (List UInt8))
    (src_size : Nat) (patch : Option (List UInt8)) (patch_size : Nat) :
    (ips_patch dst dst_size src src_size patch patch_size).isSome = true := by
  unfold ips_patch
  split
  · split
    · rfl
    · split
      · rfl
      · split
        · rfl
        · rw [Option.isSome_map']
          exact ips_patch_loop_isSome _ _ _ _ _ _ (by omega)
  · rfl

/-- The call on a patch made of the header, well-formed records and any bytes
`rest`: the records are applied, and the loop goes on at the start of `rest`. -/
theorem ips_patch_after_records (dst src : List UInt8) (rs : List Record) (rest : List UInt8)
    (hd : dst ≠ []) (hs : src ≠ [])
    (hmin : 9 ≤ (PATCH_MAGIC ++ encodeAll rs ++ rest).length)
    (hmax : (PATCH_MAGIC ++ encodeAll rs ++ rest).length ≤ 0x1000000)
    (hwf : ∀ r ∈ rs, r.WellFormed ∧ r.offset ≠ EOF_MAGIC)
    (hfu : FollowedUp rs rest) :
    ∃ f po, (PATCH_MAGIC ++ encodeAll rs ++ rest).drop po = rest
      ∧ ips_patch (some dst) dst.length (some src) src.length
          (some (PATCH_MAGIC ++ encodeAll rs ++ rest)) (PATCH_MAGIC ++ encodeAll rs ++ rest).length
        = match applyChecked rs (seed dst src) with
          | (true, d) =>
            (ips_patch_loop (PATCH_MAGIC ++ encodeAll rs ++ rest)
              (PATCH_MAGIC ++ encodeAll rs ++ rest).length dst.length (f + 1) d po).map
                fun r => (r.1, some r.2)
          | (false, d) => some (false, some d) := by
  have hv := ips_verify_header_magic (encodeAll rs ++ rest)
    (PATCH_MAGIC ++ encodeAll rs ++ rest).length (by omega)
  rw [← List.append_assoc] at hv
  generalize hp : PATCH_MAGIC ++ encodeAll rs ++ rest = p at hmin hmax hv
  have hdrop : p.drop PATCH_HEADER_SIZE = encodeAll rs ++ rest := by
    rw [← hp, List.append_assoc]
    exact List.drop_left' rfl
  have hlen : p.length = 5 + (encodeAll rs).length + rest.length := by
    rw [← hp]; simp [PATCH_MAGIC]; omega
  have hrs := length_le_length_encodeAll rs
  obtain ⟨f, hf⟩ : ∃ f, p.length + 1 = (f + 1) + rs.length := ⟨p.length - rs.length, by omega⟩
  have hd0 : ¬ (dst.length = 0 ∨ src.length = 0) := by
    simp only [List.length_eq_zero]; tauto
  have hsz : ¬ (p.length < PATCH_MIN_SIZE ∨ p.length > PATCH_MAX_SIZE) := by
    unfold PATCH_MIN_SIZE PATCH_MAX_SIZE; omega
  have hseed : (if src.length < dst.length then memcpy dst src src.length else dst)
      = seed dst src := by
    simp [seed, memcpy]
  refine ⟨f, PATCH_HEADER_SIZE + (encodeAll rs).length, drop_of_drop hdrop, ?_⟩
  unfold ips_patch
  simp only [hd0, hsz, hv, if_false, not_true_eq_false, hseed]
  rw [hf, ips_patch_loop_records (f + 1) rs rest _ _ hdrop hwf hfu (length_seed dst src)]
  cases hw : applyChecked rs (seed dst src) with
  | mk ok d => cases ok <;> rfl

theorem length_ips_patch_literal (p : List UInt8) (dsz psz : Nat) (n : Nat) :
    ∀ (dst : List UInt8) (o po : Nat),
      (ips_patch_literal p dsz psz n dst o po).2.1.length = dst.length := by
  induction n with
  | zero => intro dst o po; rfl
  | succ n ih =>
    intro dst o po
    unfold ips_patch_literal
    split
    · rfl
    · split
      · rfl
      · simp only [safe_write]
        split
        · rw [ih]; simp
        · rw [ih]

/-- The literal loop fails when fewer payload bytes are left than it was asked
to copy. -/
theorem ips_patch_literal_short (p : List UInt8) (dsz : Nat) (n : Nat) :
    ∀ (part dst : List UInt8) (o po : Nat), p.drop po = part → part.length < n →
      (ips_patch_literal p dsz p.length n dst o po).1 = false := by
  induction n with
  | zero => intro part dst o po _ h; omega
  | succ n ih =>
    intro part dst o po hp hlt
    unfold ips_patch_literal
    split
    · rfl
    · split
      · rfl
      · rename_i h1 h2
        cases part with
        | nil =>
          have := List.drop_eq_nil_iff.mp hp
          omega
        | cons b part =>
          have hp2 : p.drop (po + 1) = part := drop_of_drop (show p.drop po = [b] ++ part from hp)
          rw [safe_read_at hp]
          exact ih part _ _ _ hp2 (by simpa using hlt)

/-- One turn of the application loop on a record cut off after its offset and
length fields: the call fails. -/
theorem ips_patch_loop_truncated {p t suffix dst : List UInt8} {po dsz : Nat} (fuel : Nat)
    (r : Record) (h : p.drop po = t) (henc : r.encode = t ++ suffix) (hsuf : suffix ≠ [])
    (hwf : r.WellFormed) (hne : r.offset ≠ EOF_MAGIC) (hlen : r.len ≠ 0)
    (hhead : r.headerLen ≤ t.length) (hd : dst.length = dsz) :
    ∃ d, ips_patch_loop p p.length dsz (fuel + 1) dst po = some (false, d)
      ∧ d.length = dsz := by
  have hsl : 0 < suffix.length := List.length_pos.mpr hsuf
  have hel := congrArg List.length henc
  rw [List.length_append] at hel
  cases r with
  | literal o pl =>
    obtain ⟨ho, hl0, hl⟩ := hwf
    rw [length_encode_literal] at hel
    simp only [Record.headerLen] at hhead
    have ht5 : t.take 5 = be3 o ++ be2 pl.length := by
      have h1 : (t ++ suffix).take 5 = t.take 5 := List.take_append_of_le_length hhead
      rw [← h1, ← henc]
      simp [Record.encode, be3, be2]
    have htd : t = be3 o ++ be2 pl.length ++ t.drop 5 := by
      rw [← ht5, List.take_append_drop]
    have hp5 : p.drop po = be3 o ++ be2 pl.length ++ t.drop 5 := by rw [h, ← htd]
    simp only [be3, be2, List.cons_append, List.nil_append] at hp5
    have h3 := safe_read3_at hp5
    rw [decode_be3 o ho] at h3
    have hd3 := drop_of_drop (show p.drop po = [_, _, _] ++ _ from hp5)
    simp only [List.length_cons, List.length_nil] at hd3
    have h2 := safe_read2_at hd3
    rw [decode_be2 _ hl] at h2
    have hd5 : p.drop (po + 5) = t.drop 5 :=
      drop_of_drop (show p.drop (po + 3) = [_, _] ++ _ from hd3)
    have hlenp := length_of_drop hp5 (by simp)
    simp only [List.length_cons] at hlenp
    have hlt : po < p.length := by omega
    have hne2 : ¬ (o = EOF_MAGIC) := hne
    have hsz : ¬ (pl.length = RLE_ENCODING) := by unfold RLE_ENCODING; omega
    have hshort := ips_patch_literal_short p dsz pl.length (t.drop 5) dst o (po + 5) hd5
      (by rw [List.length_drop]; omega)
    have hlenl := length_ips_patch_literal p dsz p.length pl.length dst o (po + 5)
    rw [ips_patch_loop]
    simp only [hlt, if_true, h3, hne2, if_false, h2, hsz]
    rcases hl : ips_patch_literal p dsz p.length pl.length dst o (po + 5) with ⟨ok, d, po2⟩
    rw [hl] at hshort hlenl
    simp only at hshort hlenl
    subst hshort
    exact ⟨d, rfl, by rw [hlenl, hd]⟩
  | rle o n v =>
    obtain ⟨ho, hn⟩ := hwf
    rw [length_encode_rle] at hel
    simp only [Record.headerLen] at hhead
    have hn0 : n ≠ 0 := by
      simpa [Record.len, Record.bytes] using hlen
    have ht7 : t.take 7 = be3 o ++ be2 0 ++ be2 n := by
      have h1 : (t ++ suffix).take 7 = t.take 7 := List.take_append_of_le_length hhead
      rw [← h1, ← henc]
      simp [Record.encode, be3, be2]
    have htd : t = be3 o ++ be2 0 ++ be2 n := by
      rw [← ht7, List.take_of_length_le (by omega)]
    have hp7 : p.drop po = be3 o ++ be2 0 ++ be2 n := by rw [h, ← htd]
    simp only [be3, be2, List.cons_append, List.nil_append] at hp7
    have h3 := safe_read3_at hp7
    rw [decode_be3 o ho] at h3
    have hd3 := drop_of_drop (show p.drop po = [_, _, _] ++ _ from hp7)
    simp only [List.length_cons, List.length_nil] at hd3
    have h2 := safe_read2_at hd3
    rw [decode_be2 0 (by decide)] at h2
    have hd5 := drop_of_drop (show p.drop (po + 3) = [_, _] ++ _ from hd3)
    simp only [List.length_cons, List.length_nil] at hd5
    have h2b := safe_read2_at hd5
    rw [decode_be2 _ hn] at h2b
    have hlenp := length_of_drop hp7 (by simp)
    simp only [List.length_cons, List.length_nil] at hlenp
    have hlt : po < p.length := by omega
    have hne2 : ¬ (o = EOF_MAGIC) := hne
    have h1 : safe_read p (po + 3 + 2 + 2) p.length = (0, po + 3 + 2 + 2) := by
      unfold safe_read
      rw [if_neg (by omega)]
    obtain ⟨m, rfl⟩ : ∃ m, n = m + 1 := ⟨n - 1, by omega⟩
    rw [ips_patch_loop]
    simp only [hlt, if_true, h3, hne2, if_false, h2, RLE_ENCODING, h2b, h1]
    unfold ips_patch_rle
    by_cases hod : o ≥ dsz
    · rw [if_pos hod]
      exact ⟨dst, rfl, hd⟩
    · rw [if_neg hod, if_pos (by omega)]
      exact ⟨dst, rfl, hd⟩

/-- The call fails on a patch made of the header, well-formed records, and a
record cut off after its offset and length fields. -/
theorem ips_patch_truncated_fails (dst src : List UInt8) (rs : List Record) (r : Record)
    (t suffix : List UInt8) (hd : dst ≠ []) (hs : src ≠ [])
    (hmin : 9 ≤ (PATCH_MAGIC ++ encodeAll rs ++ t).length)
    (hmax : (PATCH_MAGIC ++ encodeAll rs ++ t).length ≤ 0x1000000)
    (hwf : ∀ x ∈ rs, x.WellFormed ∧ x.offset ≠ EOF_MAGIC)
    (hr : r.WellFormed) (henc : r.encode = t ++ suffix) (hsuf : suffix ≠ [])
    (hhead : r.headerLen ≤ t.length) (hne : r.offset ≠ EOF_MAGIC) (hlen : r.len ≠ 0) :
    ∃ d, ips_patch (some dst) dst.length (some src) src.length
        (some (PATCH_MAGIC ++ encodeAll rs ++ t)) (PATCH_MAGIC ++ encodeAll rs ++ t).length
      = some (false, some d) := by
  have ht : t ≠ [] := by
    intro h0
    rw [h0] at hhead
    cases r <;> simp [Record.headerLen] at hhead
  obtain ⟨f, po, hdrop, hrun⟩ := ips_patch_after_records dst src rs t hd hs hmin hmax hwf
    (followedUp_of_ne_nil t ht rs)
  rw [hrun]
  have hl := length_applyChecked rs (seed dst src)
  rw [length_seed] at hl
  cases hw : applyChecked rs (seed dst src) with
  | mk ok d =>
    rw [hw] at hl
    cases ok
    · exact ⟨d, rfl⟩
    · obtain ⟨d2, h2, _⟩ := ips_patch_loop_truncated f r hdrop henc hsuf hr hne hlen hhead hl
      simp only [h2]
      exact ⟨d2, rfl⟩

theorem length_applyWrites (ws : List (Nat × UInt8)) : ∀ dst : List UInt8,
    (applyWrites ws dst).length = dst.length := by
  induction ws with
  | nil => intro dst; rfl
  | cons w ws ih =>
    intro dst
    show (applyWrites ws (dst.set w.1 w.2)).length = dst.length
    rw [ih, List.length_set]

theorem applyWrites_append (ws1 ws2 : List (Nat × UInt8)) (dst : List UInt8) :
    applyWrites (ws1 ++ ws2) dst = applyWrites ws2 (applyWrites ws1 dst) := by
  unfold applyWrites
  rw [List.foldl_append]

/-- A byte at an index that no write names keeps its value. -/
theorem getElem?_applyWrites (ws : List (Nat × UInt8)) : ∀ (dst : List UInt8) (i : Nat),
    (∀ w ∈ ws, w.1 ≠ i) → (applyWrites ws dst)[i]? = dst[i]? := by
  induction ws with
  | nil => intro dst i _; rfl
  | cons w ws ih =>
    intro dst i h
    show (applyWrites ws (dst.set w.1 w.2))[i]? = dst[i]?
    rw [ih _ _ (fun x hx => h x (List.mem_cons_of_mem _ hx)),
      List.getElem?_set_ne (h w (List.mem_cons_self _ _))]

/-- The RLE loop as a list of writes that does not depend on the contents of the
destination. -/
theorem ips_patch_rle_writes (v : UInt8) (dsz po psz : Nat) (n : Nat) :
    ∀ o : Nat, ∃ (b : Bool) (ws : List (Nat × UInt8)), (∀ w ∈ ws, w.1 < dsz) ∧
      ∀ dst : List UInt8, dst.length = dsz →
        ips_patch_rle v dsz po psz n dst o = (b, applyWrites ws dst) := by
  induction n with
  | zero => intro o; exact ⟨true, [], by simp, fun dst _ => rfl⟩
  | succ n ih =>
    intro o
    by_cases h1 : o ≥ dsz
    · refine ⟨false, [], by simp, fun dst _ => ?_⟩
      rw [ips_patch_rle, if_pos h1]; rfl
    · by_cases h2 : po ≥ psz
      · refine ⟨false, [], by simp, fun dst _ => ?_⟩
        rw [ips_patch_rle, if_neg h1, if_pos h2]; rfl
      · obtain ⟨b, ws, hb, hws⟩ := ih (o + 1)
        refine ⟨b, (o, v) :: ws, ?_, fun dst hd => ?_⟩
        · intro w hw
          rcases List.mem_cons.mp hw with rfl | hw2
          · exact Nat.lt_of_not_le h1
          · exact hb w hw2
        · rw [ips_patch_rle, if_neg h1, if_neg h2]
          simp only [safe_write, if_pos (Nat.lt_of_not_le h1)]
          exact hws _ (by rw [List.length_set]; exact hd)

/-- The literal loop as a list of writes that does not depend on the contents of
the destination. -/
theorem ips_patch_literal_writes (p : List UInt8) (dsz psz : Nat) (n : Nat) :
    ∀ o po : Nat, ∃ (b : Bool) (ws : List (Nat × UInt8)) (po2 : Nat),
      (∀ w ∈ ws, w.1 < dsz) ∧ po ≤ po2 ∧
      ∀ dst : List UInt8, dst.length = dsz →
        ips_patch_literal p dsz psz n dst o po = (b, applyWrites ws dst, po2) := by
  induction n with
  | zero => intro o po; exact ⟨true, [], po, by simp, Nat.le_refl _, fun dst _ => rfl⟩
  | succ n ih =>
    intro o po
    by_cases h1 : o ≥ dsz
    · refine ⟨false, [], po, by simp, Nat.le_refl _, fun dst _ => ?_⟩
      rw [ips_patch_literal, if_pos h1]; rfl
    · by_cases h2 : po ≥ psz
      · refine ⟨false, [], po, by simp, Nat.le_refl _, fun dst _ => ?_⟩
        rw [ips_patch_literal, if_neg h1, if_pos h2]; rfl
      · have hge := safe_read_snd_ge p po psz
        obtain ⟨b, ws, po2, hb, hpo, hws⟩ := ih (o + 1) (safe_read p po psz).2
        refine ⟨b, (o, (safe_read p po psz).1) :: ws, po2, ?_, Nat.le_trans hge hpo,
          fun dst hd => ?_⟩
        · intro w hw
          rcases List.mem_cons.mp hw with rfl | hw2
          · exact Nat.lt_of_not_le h1
          · exact hb w hw2
        · rw [ips_patch_literal, if_neg h1, if_neg h2]
          simp only [safe_write, if_pos (Nat.lt_of_not_le h1)]
          exact hws _ (by rw [List.length_set]; exact hd)

/-- The application loop as a boolean and a list of writes that depend on the
patch and the destination size only. -/
theorem ips_patch_loop_writes (p : List UInt8) (psz dsz : Nat) (fuel : Nat) :
    ∀ po : Nat, psz - po < fuel → ∃ (b : Bool) (ws : List (Nat × UInt8)),
      (∀ w ∈ ws, w.1 < dsz) ∧
      ∀ dst : List UInt8, dst.length = dsz →
        ips_patch_loop p psz dsz fuel dst po = some (b, applyWrites ws dst) := by
  induction fuel with
  | zero => intro po h; omega
  | succ fuel ih =>
    intro po h
    by_cases hlt : po < psz
    · have e3 := safe_read3_snd p po psz
      rcases h3 : safe_read3 p po psz with ⟨offset, po1⟩
      rw [h3] at e3
      simp only at e3
      by_cases heof : offset = EOF_MAGIC
      · refine ⟨true, [], by simp, fun dst _ => ?_⟩
        rw [ips_patch_loop, if_pos hlt]
        simp only [h3, heof, if_true]
        rfl
      · have e2 := safe_read2_snd p po1 psz
        rcases h2 : safe_read2 p po1 psz with ⟨size, po2⟩
        rw [h2] at e2
        simp only at e2
        by_cases hrle : size = RLE_ENCODING
        · have e2b := safe_read2_snd p po2 psz
          rcases h2b : safe_read2 p po2 psz with ⟨rle_size, po3⟩
          rw [h2b] at e2b
          have e1 := safe_read_snd_ge p po3 psz
          rcases h1 : safe_read p po3 psz with ⟨value, po4⟩
          rw [h1] at e1
          simp only at e2b e1
          obtain ⟨b1, ws1, hb1, hw1⟩ := ips_patch_rle_writes value dsz po4 psz rle_size offset
          cases b1 with
          | false =>
            refine ⟨false, ws1, hb1, fun dst hd => ?_⟩
            rw [ips_patch_loop, if_pos hlt]
            simp only [h3, heof, if_false, h2, hrle, if_true, h2b, h1, hw1 dst hd]
          | true =>
            obtain ⟨b2, ws2, hb2, hw2⟩ := ih po4 (by omega)
            refine ⟨b2, ws1 ++ ws2, ?_, fun dst hd => ?_⟩
            · intro w hw
              rcases List.mem_append.mp hw with hw | hw
              · exact hb1 w hw
              · exact hb2 w hw
            · rw [ips_patch_loop, if_pos hlt]
              simp only [h3, heof, if_false, h2, hrle, if_true, h2b, h1, hw1 dst hd]
              rw [hw2 _ (by rw [length_applyWrites]; exact hd), applyWrites_append]
        · obtain ⟨b1, ws1, po3, hb1, hpo3, hw1⟩ :=
            ips_patch_literal_writes p dsz psz size offset po2
          cases b1 with
          | false =>
            refine ⟨false, ws1, hb1, fun dst hd => ?_⟩
            rw [ips_patch_loop, if_pos hlt]
            simp only [h3, heof, if_false, h2, hrle, hw1 dst hd]
          | true =>
            obtain ⟨b2, ws2, hb2, hw2⟩ := ih po3 (by omega)
            refine ⟨b2, ws1 ++ ws2, ?_, fun dst hd => ?_⟩
            · intro w hw
              rcases List.mem_append.mp hw with hw | hw
              · exact hb1 w hw
              · exact hb2 w hw
            · rw [ips_patch_loop, if_pos hlt]
              simp only [h3, heof, if_false, h2, hrle, hw1 dst hd]
              rw [hw2 _ (by rw [length_applyWrites]; exact hd), applyWrites_append]
    · refine ⟨true, [], by simp, fun dst _ => ?_⟩
      rw [ips_patch_loop, if_neg hlt]
      rfl

/-- With a source at least as long as the destination, the call is a boolean and
a list of writes that depend on the patch and the destination size only. -/
theorem ips_patch_writes (patch : Option (List UInt8)) (psz dsz : Nat) :
    ∃ (b : Bool) (ws : List (Nat × UInt8)), (∀ w ∈ ws, w.1 < dsz) ∧
      ∀ dst src : List UInt8, dst.length = dsz → src ≠ [] → dsz ≤ src.length →
        ips_patch (some dst) dsz (some src) src.length patch psz
          = some (b, some (applyWrites ws dst)) := by
  cases patch with
  | none => exact ⟨false, [], by simp, fun dst src _ _ _ => rfl⟩
  | some p =>
    by_cases h0 : dsz = 0
    · refine ⟨false, [], by simp, fun dst src _ _ _ => ?_⟩
      unfold ips_patch
      simp only
      rw [if_pos (Or.inl h0)]
      rfl
    · by_cases h1 : psz < PATCH_MIN_SIZE ∨ psz > PATCH_MAX_SIZE
      · refine ⟨false, [], by simp, fun dst src _ hs _ => ?_⟩
        have hs0 : src.length ≠ 0 := fun h => hs (List.length_eq_zero.mp h)
        unfold ips_patch
        simp only
        rw [if_neg (by tauto), if_pos h1]
        rfl
      · by_cases h2 : ips_verify_header (some p) psz = true
        · obtain ⟨b, ws, hb, hw⟩ := ips_patch_loop_writes p psz dsz (psz + 1) PATCH_HEADER_SIZE
            (by omega)
          refine ⟨b, ws, hb, fun dst src hd hs hle => ?_⟩
          have hs0 : src.length ≠ 0 := fun h => hs (List.length_eq_zero.mp h)
          unfold ips_patch
          simp only
          rw [if_neg (by tauto), if_neg h1, if_neg (by simpa using h2),
            if_neg (by omega), hw dst hd]
          rfl
        · refine ⟨false, [], by simp, fun dst src _ hs _ => ?_⟩
          have hs0 : src.length ≠ 0 := fun h => hs (List.length_eq_zero.mp h)
          unfold ips_patch
          simp only
          rw [if_neg (by tauto), if_neg h1, if_pos (by simpa using h2)]
          rfl

theorem ips_patch_of_empty (dst src p : List UInt8) (psz : Nat) (h : dst = [] ∨ src = []) :
    ips_patch (some dst) dst.length (some src) src.length (some p) psz
      = some (false, some dst) := by
  have h0 : dst.length = 0 ∨ src.length = 0 := by
    rcases h with h | h
    · left; rw [h]; rfl
    · right; rw [h]; rfl
  unfold ips_patch
  simp only
  rw [if_pos h0]

/-! ## The claims of the specification -/

/-- C1: for a non-empty destination and source and a patch of length in
[9, 16 MiB] made of the header, well-formed records with no offset equal to
0x454F46 and the end marker, all records fitting in the destination,
`ips_patch` returns true and the final destination is the seeded destination
with every record written over it in order. -/
theorem ips_patch_wellformed (dst src : List UInt8) (rs : List Record)
    (hd : dst ≠ []) (hs : src ≠ [])
    (hmin : 9 ≤ (mkPatch rs).length) (hmax : (mkPatch rs).length ≤ 0x1000000)
    (hwf : ∀ r ∈ rs, r.WellFormed ∧ r.offset ≠ EOF_MAGIC)
    (hfit : ∀ r ∈ rs, r.offset + r.len ≤ dst.length) :
    ips_patch (some dst) dst.length (some src) src.length (some (mkPatch rs)) (mkPatch rs).length
      = some (true, some (applyRecords rs (seed dst src))) := by
  unfold mkPatch at hmin hmax ⊢
  rw [ips_patch_stream dst src rs EOF_MARKER hd hs hmin hmax hwf (Or.inr ⟨[], by simp⟩)
    (followedUp_marker rs),
    applyChecked_fit rs (seed dst src)
      (fun r hr => Or.inr (by rw [length_seed]; exact hfit r hr))]

theorem ips_patch_wellformed_witness :
    ips_patch (some [1, 2, 3, 4]) [(1 : UInt8), 2, 3, 4].length (some [9, 8]) [(9 : UInt8), 8].length
        (some (mkPatch [Record.literal 1 [0xAA, 0xBB], Record.rle 2 2 0x7F]))
        (mkPatch [Record.literal 1 [0xAA, 0xBB], Record.rle 2 2 0x7F]).length
      = some (true, some (applyRecords [Record.literal 1 [0xAA, 0xBB], Record.rle 2 2 0x7F]
          (seed [1, 2, 3, 4] [9, 8])))
    ∧ applyRecords [Record.literal 1 [0xAA, 0xBB], Record.rle 2 2 0x7F] (seed [1, 2, 3, 4] [9, 8])
      = [9, 0xAA, 0x7F, 0x7F] :=
  ⟨ips_patch_wellformed [1, 2, 3, 4] [9, 8] [Record.literal 1 [0xAA, 0xBB], Record.rle 2 2 0x7F]
    (by decide) (by decide) (by decide) (by decide) (by decide) (by decide), by decide⟩

/-- C2: on a patch made of the header, well-formed records with no offset equal
to 0x454F46, and then the end marker or nothing at all, `ips_get_size` succeeds
and the size is the maximum of offset + record length over the records, 0 when
there is none. -/
theorem ips_get_size_wellformed (rs : List Record)
    (hwf : ∀ r ∈ rs, r.WellFormed ∧ r.offset ≠ EOF_MAGIC) :
    ips_get_size (mkPatch rs) (mkPatch rs).length = some (true, maxEnd rs)
      ∧ ips_get_size (mkPatchOpen rs) (mkPatchOpen rs).length = some (true, maxEnd rs)
      ∧ (∀ r ∈ rs, r.offset + r.len ≤ maxEnd rs)
      ∧ (rs ≠ [] → ∃ r ∈ rs, maxEnd rs = r.offset + r.len)
      ∧ (rs = [] → maxEnd rs = 0) := by
  refine ⟨?_, ?_, fun r hr => le_maxEnd hr, fun h => maxEnd_attained h, ?_⟩
  · exact ips_get_size_stream rs EOF_MARKER hwf (Or.inr ⟨[], by simp⟩)
  · have := ips_get_size_stream rs [] hwf (Or.inl rfl)
    simpa [mkPatchOpen] using this
  · rintro rfl; rfl

theorem ips_get_size_wellformed_witness :
    ips_get_size (mkPatch [Record.literal 1 [0xAA, 0xBB], Record.rle 2 2 0x7F])
        (mkPatch [Record.literal 1 [0xAA, 0xBB], Record.rle 2 2 0x7F]).length
      = some (true, maxEnd [Record.literal 1 [0xAA, 0xBB], Record.rle 2 2 0x7F])
    ∧ maxEnd [Record.literal 1 [0xAA, 0xBB], Record.rle 2 2 0x7F] = 4 :=
  ⟨(ips_get_size_wellformed [Record.literal 1 [0xAA, 0xBB], Record.rle 2 2 0x7F]
    (by decide)).1, by decide⟩

/-- C3: `ips_verify_header` returns true exactly when the patch is non-null, the
size is at least 5 and the first five bytes are "PATCH"; it is false below 5
bytes and on any mismatch, and bytes after the fifth do not matter. -/
theorem ips_verify_header_spec (patch : Option (List UInt8)) (n : Nat) :
    (ips_verify_header patch n = true ↔
        ∃ p, patch = some p ∧ 5 ≤ n ∧ p.take 5 = [0x50, 0x41, 0x54, 0x43, 0x48])
      ∧ (n < 5 → ips_verify_header patch n = false)
      ∧ (∀ p, patch = some p → p.take 5 ≠ [0x50, 0x41, 0x54, 0x43, 0x48] →
          ips_verify_header patch n = false)
      ∧ (∀ p q : List UInt8, p.take 5 = q.take 5 →
          ips_verify_header (some p) n = ips_verify_header (some q) n) := by
  have key := ips_verify_header_eq_true_iff
  refine ⟨key patch n, ?_, ?_, ?_⟩
  · intro hn
    rw [← Bool.not_eq_true, key]
    rintro ⟨p, _, h5, _⟩
    omega
  · intro p hp hne
    rw [← Bool.not_eq_true, key]
    rintro ⟨q, hq, _, hm⟩
    rw [hp] at hq
    cases hq
    exact hne hm
  · intro p q hpq
    rw [Bool.eq_iff_iff, key, key]
    simp [hpq]

/-- C4: a destination at least as long as the size `ips_get_size` returns is
long enough: `ips_patch` returns true on a patch made of the header, well-formed
records with no offset equal to 0x454F46 and the end marker. -/
theorem ips_get_size_sufficient (dst src : List UInt8) (rs : List Record) (n : Nat)
    (hd : dst ≠ []) (hs : src ≠ [])
    (hmin : 9 ≤ (mkPatch rs).length) (hmax : (mkPatch rs).length ≤ 0x1000000)
    (hwf : ∀ r ∈ rs, r.WellFormed ∧ r.offset ≠ EOF_MAGIC)
    (hsize : ips_get_size (mkPatch rs) (mkPatch rs).length = some (true, n))
    (hge : n ≤ dst.length) :
    ∃ d, ips_patch (some dst) dst.length (some src) src.length (some (mkPatch rs))
      (mkPatch rs).length = some (true, some d) := by
  unfold mkPatch at hmin hmax hsize ⊢
  rw [ips_get_size_stream rs EOF_MARKER hwf (Or.inr ⟨[], by simp⟩)] at hsize
  have hn : maxEnd rs = n := by
    simpa using hsize
  refine ⟨applyRecords rs (seed dst src), ?_⟩
  rw [ips_patch_stream dst src rs EOF_MARKER hd hs hmin hmax hwf (Or.inr ⟨[], by simp⟩)
    (followedUp_marker rs),
    applyChecked_fit rs (seed dst src)
      (fun r hr => Or.inr (by rw [length_seed]; have := le_maxEnd hr; omega))]

theorem ips_get_size_sufficient_witness :
    ∃ d, ips_patch (some [1, 2, 3, 4]) [(1 : UInt8), 2, 3, 4].length (some [9, 8])
      [(9 : UInt8), 8].length
      (some (mkPatch [Record.literal 1 [0xAA, 0xBB], Record.rle 2 2 0x7F]))
      (mkPatch [Record.literal 1 [0xAA, 0xBB], Record.rle 2 2 0x7F]).length = some (true, some d) :=
  ips_get_size_sufficient [1, 2, 3, 4] [9, 8] [Record.literal 1 [0xAA, 0xBB], Record.rle 2 2 0x7F]
    4 (by decide) (by decide) (by decide) (by decide) (by decide) (by decide) (by decide)

/-- C5 (as stated, refuted): a well-formed RLE record with run length 0 at offset
5 makes `ips_get_size` return 5, yet `ips_patch` succeeds on a 1-byte
destination. -/
theorem ips_get_size_not_minimum :
    (∀ r ∈ [Record.rle 5 0 0x7F], r.WellFormed)
      ∧ 9 ≤ (mkPatch [Record.rle 5 0 0x7F]).length
      ∧ (mkPatch [Record.rle 5 0 0x7F]).length ≤ 0x1000000
      ∧ ips_get_size (mkPatch [Record.rle 5 0 0x7F]) (mkPatch [Record.rle 5 0 0x7F]).length
          = some (true, 5)
      ∧ [(1 : UInt8)].length < 5
      ∧ ips_patch (some [1]) [(1 : UInt8)].length (some [0]) [(0 : UInt8)].length
          (some (mkPatch [Record.rle 5 0 0x7F])) (mkPatch [Record.rle 5 0 0x7F]).length
          = some (true, some [1]) := by
  decide

/-- C5 (amended): when every record of the patch writes at least one byte (no
RLE record has run length 0), a non-empty destination shorter than the size
`ips_get_size` returns makes `ips_patch` return failure. -/
theorem ips_get_size_minimum (dst src : List UInt8) (rs : List Record) (n : Nat)
    (hd : dst ≠ []) (hs : src ≠ [])
    (hmin : 9 ≤ (mkPatch rs).length) (hmax : (mkPatch rs).length ≤ 0x1000000)
    (hwf : ∀ r ∈ rs, r.WellFormed) (hnz : ∀ r ∈ rs, r.len ≠ 0)
    (hsize : ips_get_size (mkPatch rs) (mkPatch rs).length = some (true, n))
    (hlt : dst.length < n) :
    ∃ d, ips_patch (some dst) dst.length (some src) src.length (some (mkPatch rs))
      (mkPatch rs).length = some (false, some d) := by
  obtain ⟨rs1, tail, h1, h2⟩ := mkPatch_split rs
  have hp : mkPatch rs = PATCH_MAGIC ++ encodeAll rs1 ++ (EOF_MARKER ++ tail) := by
    unfold mkPatch
    rw [List.append_assoc, h2, ← List.append_assoc]
  have hwf1 : ∀ r ∈ rs1, r.WellFormed ∧ r.offset ≠ EOF_MAGIC :=
    fun r hr => ⟨hwf r (h1 r hr).1, (h1 r hr).2⟩
  rw [hp] at hmin hmax hsize ⊢
  rw [ips_get_size_stream rs1 _ hwf1 (Or.inr ⟨tail, rfl⟩)] at hsize
  have hn : maxEnd rs1 = n := by
    simpa using hsize
  have hne : rs1 ≠ [] := by
    rintro rfl
    have : maxEnd [] = 0 := rfl
    omega
  obtain ⟨r, hr, hmaxr⟩ := maxEnd_attained hne
  have hfail := applyChecked_overflow rs1 (seed dst src)
    ⟨r, hr, hnz r (h1 r hr).1, by rw [length_seed]; omega⟩
  refine ⟨(applyChecked rs1 (seed dst src)).2, ?_⟩
  rw [ips_patch_stream dst src rs1 _ hd hs hmin hmax hwf1 (Or.inr ⟨tail, rfl⟩)
    (followedUp_of_ne_nil _ (by simp [EOF_MARKER]) rs1), hfail]

theorem ips_get_size_minimum_witness :
    ∃ d, ips_patch (some [1, 2, 3]) [(1 : UInt8), 2, 3].length (some [9, 8])
      [(9 : UInt8), 8].length
      (some (mkPatch [Record.literal 1 [0xAA, 0xBB], Record.rle 2 2 0x7F]))
      (mkPatch [Record.literal 1 [0xAA, 0xBB], Record.rle 2 2 0x7F]).length
        = some (false, some d) :=
  ips_get_size_minimum [1, 2, 3] [9, 8] [Record.literal 1 [0xAA, 0xBB], Record.rle 2 2 0x7F]
    4 (by decide) (by decide) (by decide) (by decide) (by decide) (by decide) (by decide)
    (by decide)

/-- C6: round trip of one literal record at offset 0 whose payload `T` is as long
as the source: `ips_get_size` returns that length, and `ips_patch` into a
destination of that length returns true and leaves exactly `T`. -/
theorem ips_literal_roundtrip (n : Nat) (S T dst : List UInt8)
    (h1 : 1 ≤ n) (h2 : n ≤ 65535) (hS : S.length = n) (hT : T.length = n)
    (hdst : dst.length = n) :
    ips_get_size (PATCH_MAGIC ++ be3 0 ++ be2 n ++ T ++ EOF_MARKER)
        (PATCH_MAGIC ++ be3 0 ++ be2 n ++ T ++ EOF_MARKER).length = some (true, n)
      ∧ ips_patch (some dst) n (some S) n (some (PATCH_MAGIC ++ be3 0 ++ be2 n ++ T ++ EOF_MARKER))
          (PATCH_MAGIC ++ be3 0 ++ be2 n ++ T ++ EOF_MARKER).length = some (true, some T) := by
  have hp : PATCH_MAGIC ++ be3 0 ++ be2 n ++ T ++ EOF_MARKER
      = PATCH_MAGIC ++ encodeAll [Record.literal 0 T] ++ EOF_MARKER := by
    simp only [encodeAll, Record.encode, hT, List.append_assoc, List.append_nil]
  have hwf : ∀ r ∈ [Record.literal 0 T], r.WellFormed ∧ r.offset ≠ EOF_MAGIC := by
    intro r hr
    rw [List.mem_singleton] at hr
    subst hr
    exact ⟨⟨by decide, by omega, by omega⟩, by simp [Record.offset, EOF_MAGIC]⟩
  have hlen : (PATCH_MAGIC ++ encodeAll [Record.literal 0 T] ++ EOF_MARKER).length = 13 + n := by
    simp [PATCH_MAGIC, EOF_MARKER, encodeAll, Record.encode, be3, be2, hT]; omega
  have hd : dst ≠ [] := by
    rintro rfl; simp at hdst; omega
  have hs : S ≠ [] := by
    rintro rfl; simp at hS; omega
  rw [hp]
  constructor
  · rw [ips_get_size_stream _ EOF_MARKER hwf (Or.inr ⟨[], by simp⟩)]
    simp [maxEnd, Record.offset, Record.len, Record.bytes, hT]
  · have key := ips_patch_stream dst S [Record.literal 0 T] EOF_MARKER hd hs
      (by rw [hlen]; omega) (by rw [hlen]; omega) hwf (Or.inr ⟨[], by simp⟩)
      (followedUp_marker _)
    rw [hdst, hS] at key
    rw [key, applyChecked_fit _ _ (fun r hr => by
      rw [List.mem_singleton] at hr
      subst hr
      right
      rw [length_seed]
      simp [Record.offset, Record.len, Record.bytes, hT, hdst])]
    have hseed : seed dst S = dst := by simp [seed, hS, hdst]
    have hw : writeAt dst 0 T = T := by
      unfold writeAt
      rw [List.drop_of_length_le (by omega)]
      simp
    simp [applyRecords, Record.offset, Record.bytes, hseed, hw]

theorem ips_literal_roundtrip_witness :
    ips_get_size (PATCH_MAGIC ++ be3 0 ++ be2 2 ++ [0xAA, 0xBB] ++ EOF_MARKER)
        (PATCH_MAGIC ++ be3 0 ++ be2 2 ++ [0xAA, 0xBB] ++ EOF_MARKER).length = some (true, 2)
      ∧ ips_patch (some [1, 2]) 2 (some [3, 4]) 2
          (some (PATCH_MAGIC ++ be3 0 ++ be2 2 ++ [0xAA, 0xBB] ++ EOF_MARKER))
          (PATCH_MAGIC ++ be3 0 ++ be2 2 ++ [0xAA, 0xBB] ++ EOF_MARKER).length
            = some (true, some [0xAA, 0xBB]) :=
  ips_literal_roundtrip 2 [3, 4] [0xAA, 0xBB] [1, 2] (by decide) (by decide) rfl rfl rfl

/-- C7 (as stated, refuted): an RLE record at offset 0x454F46 is read as the end
marker, so nothing is written: on a destination of 0x454F46 + 1 zero bytes the
byte at index 0x454F46 stays 0 instead of becoming 0x7F. -/
theorem ips_rle_at_marker_offset :
    0x454F46 < 0x1000000 ∧ 1 < 0x10000
      ∧ 0x454F46 + 1 ≤ (List.replicate 4542279 (0 : UInt8)).length
      ∧ ips_patch (some (List.replicate 4542279 0)) (List.replicate 4542279 (0 : UInt8)).length
          (some (List.replicate 4542279 0)) (List.replicate 4542279 (0 : UInt8)).length
          (some (PATCH_MAGIC ++ be3 0x454F46 ++ be2 0 ++ be2 1 ++ [0x7F] ++ EOF_MARKER))
          (PATCH_MAGIC ++ be3 0x454F46 ++ be2 0 ++ be2 1 ++ [0x7F] ++ EOF_MARKER).length
          = some (true, some (List.replicate 4542279 0))
      ∧ (List.replicate 4542279 (0 : UInt8))[0x454F46]? = some 0
      ∧ (List.replicate 4542279 (0 : UInt8))[0x454F46]? ≠ some 0x7F := by
  have hp : PATCH_MAGIC ++ be3 0x454F46 ++ be2 0 ++ be2 1 ++ [0x7F] ++ EOF_MARKER
      = PATCH_MAGIC ++ EOF_MARKER ++ (be2 0 ++ be2 1 ++ [0x7F] ++ EOF_MARKER) := by
    decide
  have hne : List.replicate 4542279 (0 : UInt8) ≠ [] := by
    intro h
    have := congrArg List.length h
    rw [List.length_replicate] at this
    exact absurd this (by decide)
  have hget : (List.replicate 4542279 (0 : UInt8))[0x454F46]? = some 0 := by
    rw [List.getElem?_replicate, if_pos (by decide)]
  have hrun := ips_patch_marker_first _ _ (be2 0 ++ be2 1 ++ [0x7F] ++ EOF_MARKER) hne hne
    (by decide) (by decide)
  rw [seed_of_le _ _ (Nat.le_refl _), ← hp] at hrun
  refine ⟨by decide, by decide, by rw [List.length_replicate], hrun, hget, ?_⟩
  rw [hget]; decide

/-- C7 (amended): for an offset `k` other than 0x454F46, the patch made of one
RLE record (offset `k`, run `n`, fill `v`) returns true on a destination of
length at least `k + n`, sets the bytes at `[k, k+n)` to `v` and leaves every
other byte at its seeded value. -/
theorem ips_rle_correct (k n : Nat) (v : UInt8) (src dst : List UInt8)
    (hk : k < 0x1000000) (hkm : k ≠ 0x454F46) (hn : n < 0x10000)
    (hs : src ≠ []) (hd : dst ≠ []) (hlen : k + n ≤ dst.length) :
    ∃ d, ips_patch (some dst) dst.length (some src) src.length
          (some (PATCH_MAGIC ++ be3 k ++ be2 0 ++ be2 n ++ [v] ++ EOF_MARKER))
          (PATCH_MAGIC ++ be3 k ++ be2 0 ++ be2 n ++ [v] ++ EOF_MARKER).length
          = some (true, some d)
      ∧ d.length = dst.length
      ∧ (∀ i, k ≤ i → i < k + n → d[i]? = some v)
      ∧ (∀ i, i < k ∨ k + n ≤ i →
          d[i]? = if src.length < dst.length ∧ i < src.length then src[i]? else dst[i]?) := by
  have hp : PATCH_MAGIC ++ be3 k ++ be2 0 ++ be2 n ++ [v] ++ EOF_MARKER
      = PATCH_MAGIC ++ encodeAll [Record.rle k n v] ++ EOF_MARKER := by
    simp only [encodeAll, Record.encode, List.append_assoc, List.append_nil]
  have hwf : ∀ r ∈ [Record.rle k n v], r.WellFormed ∧ r.offset ≠ EOF_MAGIC := by
    intro r hr
    rw [List.mem_singleton] at hr
    subst hr
    exact ⟨⟨hk, hn⟩, hkm⟩
  have hlenp : (PATCH_MAGIC ++ encodeAll [Record.rle k n v] ++ EOF_MARKER).length = 16 := by
    simp [PATCH_MAGIC, EOF_MARKER, encodeAll, Record.encode, be3, be2]
  have hfit : k + (List.replicate n v).length ≤ (seed dst src).length := by
    rw [length_seed, List.length_replicate]; exact hlen
  refine ⟨writeAt (seed dst src) k (List.replicate n v), ?_, ?_, ?_, ?_⟩
  · rw [hp, ips_patch_stream dst src _ EOF_MARKER hd hs (by rw [hlenp]; decide)
      (by rw [hlenp]; decide) hwf (Or.inr ⟨[], by simp⟩) (followedUp_marker _),
      applyChecked_fit _ _ (fun r hr => by
        rw [List.mem_singleton] at hr
        subst hr
        exact Or.inr hfit)]
    rfl
  · rw [length_writeAt _ _ _ (Or.inr hfit), length_seed]
  · intro i h1 h2
    rw [getElem?_writeAt _ _ _ _ hfit, if_neg (by omega), List.length_replicate, if_pos h2,
      List.getElem?_replicate, if_pos (by omega)]
  · intro i hi
    rw [getElem?_writeAt _ _ _ _ hfit, List.length_replicate, getElem?_seed]
    rcases hi with hi | hi
    · rw [if_pos hi]
    · rw [if_neg (by omega), if_neg (by omega)]

theorem ips_rle_correct_witness :
    ∃ d, ips_patch (some [1, 2, 3, 4]) [(1 : UInt8), 2, 3, 4].length (some [9, 8])
          [(9 : UInt8), 8].length
          (some (PATCH_MAGIC ++ be3 1 ++ be2 0 ++ be2 2 ++ [0x7F] ++ EOF_MARKER))
          (PATCH_MAGIC ++ be3 1 ++ be2 0 ++ be2 2 ++ [0x7F] ++ EOF_MARKER).length
          = some (true, some d)
      ∧ d.length = [(1 : UInt8), 2, 3, 4].length
      ∧ (∀ i, 1 ≤ i → i < 1 + 2 → d[i]? = some 0x7F)
      ∧ (∀ i, i < 1 ∨ 1 + 2 ≤ i →
          d[i]? = if [(9 : UInt8), 8].length < [(1 : UInt8), 2, 3, 4].length
              ∧ i < [(9 : UInt8), 8].length then [(9 : UInt8), 8][i]?
            else [(1 : UInt8), 2, 3, 4][i]?) :=
  ips_rle_correct 1 2 0x7F [9, 8] [1, 2, 3, 4] (by decide) (by decide) (by decide) (by decide)
    (by decide) (by decide)

/-- C8 (as stated, refuted): the patch that ends right after an RLE record with
run length 1 is rejected, while the same patch with the end marker is applied. -/
theorem ips_patch_rle_at_end_rejected :
    (∀ r ∈ [Record.rle 0 1 0x7F], r.WellFormed ∧ r.offset ≠ EOF_MAGIC)
      ∧ 9 ≤ (mkPatchOpen [Record.rle 0 1 0x7F]).length
      ∧ (mkPatch [Record.rle 0 1 0x7F]).length ≤ 0x1000000
      ∧ ips_patch (some [0]) [(0 : UInt8)].length (some [0]) [(0 : UInt8)].length
          (some (mkPatchOpen [Record.rle 0 1 0x7F])) (mkPatchOpen [Record.rle 0 1 0x7F]).length
          = some (false, some [0])
      ∧ ips_patch (some [0]) [(0 : UInt8)].length (some [0]) [(0 : UInt8)].length
          (some (mkPatch [Record.rle 0 1 0x7F])) (mkPatch [Record.rle 0 1 0x7F]).length
          = some (true, some [0x7F]) := by
  decide

/-- C8 (amended): when the last record is not an RLE record with a nonzero run
length, the patch without the end marker and the patch with it give the same
boolean and the same final destination. -/
theorem ips_patch_unterminated (dst src : List UInt8) (rs : List Record)
    (hd : dst ≠ []) (hs : src ≠ [])
    (hmin : 9 ≤ (mkPatchOpen rs).length) (hmax : (mkPatch rs).length ≤ 0x1000000)
    (hwf : ∀ r ∈ rs, r.WellFormed ∧ r.offset ≠ EOF_MAGIC)
    (hlast : ∀ o n v, rs.getLast? = some (Record.rle o n v) → n = 0) :
    ∃ b d,
      ips_patch (some dst) dst.length (some src) src.length (some (mkPatchOpen rs))
          (mkPatchOpen rs).length = some (b, some d)
      ∧ ips_patch (some dst) dst.length (some src) src.length (some (mkPatch rs))
          (mkPatch rs).length = some (b, some d) := by
  have hlen : (mkPatch rs).length = (mkPatchOpen rs).length + 3 := by
    simp [mkPatch, mkPatchOpen, EOF_MARKER]
    omega
  have hopen : mkPatchOpen rs = PATCH_MAGIC ++ encodeAll rs ++ [] := by
    simp [mkPatchOpen]
  refine ⟨(applyChecked rs (seed dst src)).1, (applyChecked rs (seed dst src)).2, ?_, ?_⟩
  · rw [hopen] at hmin hlen ⊢
    exact ips_patch_stream dst src rs [] hd hs hmin (by omega) hwf (Or.inl rfl)
      (followedUp_nil_of_last rs hlast)
  · unfold mkPatch at hmax hlen ⊢
    exact ips_patch_stream dst src rs EOF_MARKER hd hs (by omega) hmax hwf
      (Or.inr ⟨[], by simp⟩) (followedUp_marker rs)

theorem ips_patch_unterminated_witness :
    ∃ b d,
      ips_patch (some [1, 2, 3, 4]) [(1 : UInt8), 2, 3, 4].length (some [9, 8])
          [(9 : UInt8), 8].length
          (some (mkPatchOpen [Record.rle 2 2 0x7F, Record.literal 1 [0xAA, 0xBB]]))
          (mkPatchOpen [Record.rle 2 2 0x7F, Record.literal 1 [0xAA, 0xBB]]).length
          = some (b, some d)
      ∧ ips_patch (some [1, 2, 3, 4]) [(1 : UInt8), 2, 3, 4].length (some [9, 8])
          [(9 : UInt8), 8].length
          (some (mkPatch [Record.rle 2 2 0x7F, Record.literal 1 [0xAA, 0xBB]]))
          (mkPatch [Record.rle 2 2 0x7F, Record.literal 1 [0xAA, 0xBB]]).length
          = some (b, some d) :=
  ips_patch_unterminated [1, 2, 3, 4] [9, 8] [Record.rle 2 2 0x7F, Record.literal 1 [0xAA, 0xBB]]
    (by decide) (by decide) (by decide) (by decide) (by decide)
    (fun o n v h => by simp at h)

/-- C9: a call with a null or zero-length destination or source, a null patch, a
patch size below 9 or above 16,777,216, or a patch whose first five bytes are
not "PATCH", returns failure and leaves the destination as it was. -/
theorem ips_patch_rejects (dst : Option (List UInt8)) (dst_size : Nat)
    (src : Option (List UInt8)) (src_size : Nat) (patch : Option (List UInt8)) (patch_size : Nat)
    (h : dst = none ∨ dst_size = 0 ∨ src = none ∨ src_size = 0 ∨ patch = none
      ∨ patch_size < 9 ∨ patch_size > 16777216
      ∨ ∃ p, patch = some p ∧ p.take 5 ≠ [0x50, 0x41, 0x54, 0x43, 0x48]) :
    ips_patch dst dst_size src src_size patch patch_size = some (false, dst) := by
  cases dst with
  | none => rfl
  | some d =>
    cases src with
    | none => rfl
    | some s =>
      cases patch with
      | none => rfl
      | some p =>
        unfold ips_patch
        simp only
        by_cases h1 : dst_size = 0 ∨ src_size = 0
        · rw [if_pos h1]
        · rw [if_neg h1]
          by_cases h2 : patch_size < PATCH_MIN_SIZE ∨ patch_size > PATCH_MAX_SIZE
          · rw [if_pos h2]
          · rw [if_neg h2]
            have hv : ¬ (ips_verify_header (some p) patch_size = true) := by
              rw [ips_verify_header_eq_true_iff]
              rintro ⟨q, hq, _, hm⟩
              cases hq
              unfold PATCH_MIN_SIZE PATCH_MAX_SIZE at h2
              rcases h with h | h | h | h | h | h | h | ⟨q, hq, hne⟩
              · cases h
              · exact h1 (Or.inl h)
              · cases h
              · exact h1 (Or.inr h)
              · cases h
              · exact h2 (Or.inl h)
              · exact h2 (Or.inr h)
              · cases hq
                exact hne hm
            rw [if_pos hv]

theorem ips_patch_rejects_witness :
    ips_patch (some [1, 2]) 2 (some [3]) 1 (some [0x50, 0x41, 0x54, 0x43, 0x49, 0, 0, 0, 0, 1, 7]) 11
      = some (false, some [1, 2]) :=
  ips_patch_rejects (some [1, 2]) 2 (some [3]) 1
    (some [0x50, 0x41, 0x54, 0x43, 0x49, 0, 0, 0, 0, 1, 7]) 11
    (Or.inr (Or.inr (Or.inr (Or.inr (Or.inr (Or.inr (Or.inr ⟨_, rfl, by decide⟩)))))))

/-- C10 (as stated, refuted): an RLE record with run length 0 at offset 9 has
offset + run length above the 2-byte destination, yet `ips_patch` returns
true. -/
theorem ips_patch_empty_run_beyond_end :
    (∀ r ∈ [Record.rle 9 0 0], r.WellFormed ∧ r.offset ≠ EOF_MAGIC)
      ∧ 9 ≤ (mkPatch [Record.rle 9 0 0]).length
      ∧ (mkPatch [Record.rle 9 0 0]).length ≤ 0x1000000
      ∧ (∃ r ∈ [Record.rle 9 0 0], [(1 : UInt8), 2].length < r.offset + r.len)
      ∧ ips_patch (some [1, 2]) [(1 : UInt8), 2].length (some [3]) [(3 : UInt8)].length
          (some (mkPatch [Record.rle 9 0 0])) (mkPatch [Record.rle 9 0 0]).length
          = some (true, some [3, 2]) := by
  decide

/-- C10 (amended): if some record that writes at least one byte has offset +
length (run length for an RLE record) above the destination length, `ips_patch`
returns failure, and the destination keeps its length. -/
theorem ips_patch_bounds_rejection (dst src : List UInt8) (rs : List Record)
    (hd : dst ≠ []) (hs : src ≠ [])
    (hmin : 9 ≤ (mkPatch rs).length) (hmax : (mkPatch rs).length ≤ 0x1000000)
    (hwf : ∀ r ∈ rs, r.WellFormed ∧ r.offset ≠ EOF_MAGIC)
    (hover : ∃ r ∈ rs, r.len ≠ 0 ∧ dst.length < r.offset + r.len) :
    ∃ d, ips_patch (some dst) dst.length (some src) src.length (some (mkPatch rs))
        (mkPatch rs).length = some (false, some d)
      ∧ d.length = dst.length := by
  obtain ⟨r, hr, h0, h1⟩ := hover
  have hfail := applyChecked_overflow rs (seed dst src) ⟨r, hr, h0, by rw [length_seed]; exact h1⟩
  refine ⟨(applyChecked rs (seed dst src)).2, ?_, by rw [length_applyChecked, length_seed]⟩
  unfold mkPatch at hmin hmax ⊢
  rw [ips_patch_stream dst src rs EOF_MARKER hd hs hmin hmax hwf (Or.inr ⟨[], by simp⟩)
    (followedUp_marker rs), hfail]

theorem ips_patch_bounds_rejection_witness :
    ∃ d, ips_patch (some [1, 2, 3]) [(1 : UInt8), 2, 3].length (some [9, 8])
        [(9 : UInt8), 8].length
        (some (mkPatch [Record.literal 1 [0xAA, 0xBB], Record.rle 2 2 0x7F]))
        (mkPatch [Record.literal 1 [0xAA, 0xBB], Record.rle 2 2 0x7F]).length
          = some (false, some d)
      ∧ d.length = [(1 : UInt8), 2, 3].length :=
  ips_patch_bounds_rejection [1, 2, 3] [9, 8]
    [Record.literal 1 [0xAA, 0xBB], Record.rle 2 2 0x7F]
    (by decide) (by decide) (by decide) (by decide) (by decide) (by decide)

/-- C11 (as stated, refuted): a literal record cut off inside its payload whose
offset field is 0x454F46 is read as the end marker, and `ips_patch` returns
true. -/
theorem ips_patch_truncated_literal_at_marker :
    0 < 2 ∧ 2 < 0x10000 ∧ [(0xAA : UInt8)].length < 2
      ∧ 9 ≤ (PATCH_MAGIC ++ encodeAll [] ++ (be3 0x454F46 ++ be2 2 ++ [0xAA])).length
      ∧ (PATCH_MAGIC ++ encodeAll [] ++ (be3 0x454F46 ++ be2 2 ++ [0xAA])).length ≤ 0x1000000
      ∧ ips_patch (some [1]) [(1 : UInt8)].length (some [1]) [(1 : UInt8)].length
          (some (PATCH_MAGIC ++ encodeAll [] ++ (be3 0x454F46 ++ be2 2 ++ [0xAA])))
          (PATCH_MAGIC ++ encodeAll [] ++ (be3 0x454F46 ++ be2 2 ++ [0xAA])).length
          = some (true, some [1]) := by
  decide

/-- C11 (amended): on a patch of length in [9, 16 MiB] made of the header,
well-formed records with no offset equal to 0x454F46, and a literal record
whose offset is not 0x454F46 and whose nonzero declared length `L` is above the
number of payload bytes left, `ips_patch` returns failure. -/
theorem ips_patch_truncated_literal (dst src : List UInt8) (rs : List Record) (o L : Nat)
    (part : List UInt8) (hd : dst ≠ []) (hs : src ≠ [])
    (hmin : 9 ≤ (PATCH_MAGIC ++ encodeAll rs ++ (be3 o ++ be2 L ++ part)).length)
    (hmax : (PATCH_MAGIC ++ encodeAll rs ++ (be3 o ++ be2 L ++ part)).length ≤ 0x1000000)
    (hwf : ∀ r ∈ rs, r.WellFormed ∧ r.offset ≠ EOF_MAGIC)
    (ho : o < 0x1000000) (hom : o ≠ 0x454F46) (hL0 : 0 < L) (hL : L < 0x10000)
    (hpart : part.length < L) :
    ∃ d, ips_patch (some dst) dst.length (some src) src.length
        (some (PATCH_MAGIC ++ encodeAll rs ++ (be3 o ++ be2 L ++ part)))
        (PATCH_MAGIC ++ encodeAll rs ++ (be3 o ++ be2 L ++ part)).length
      = some (false, some d) := by
  have hlen : (part ++ List.replicate (L - part.length) (0 : UInt8)).length = L := by
    simp; omega
  refine ips_patch_truncated_fails dst src rs
    (Record.literal o (part ++ List.replicate (L - part.length) 0))
    (be3 o ++ be2 L ++ part) (List.replicate (L - part.length) 0) hd hs hmin hmax hwf
    ⟨ho, by omega, by omega⟩ ?_ ?_ ?_ hom ?_
  · simp only [Record.encode, hlen, List.append_assoc]
  · intro h0
    have := congrArg List.length h0
    simp at this
    omega
  · simp [Record.headerLen, be3, be2]
  · simp only [Record.len, Record.bytes, hlen]
    omega

theorem ips_patch_truncated_literal_witness :
    ∃ d, ips_patch (some [1, 2, 3]) [(1 : UInt8), 2, 3].length (some [9]) [(9 : UInt8)].length
        (some (PATCH_MAGIC ++ encodeAll [Record.rle 2 1 0x7F] ++ (be3 0 ++ be2 2 ++ [0xAA])))
        (PATCH_MAGIC ++ encodeAll [Record.rle 2 1 0x7F] ++ (be3 0 ++ be2 2 ++ [0xAA])).length
      = some (false, some d) :=
  ips_patch_truncated_literal [1, 2, 3] [9] [Record.rle 2 1 0x7F] 0 2 [0xAA]
    (by decide) (by decide) (by decide) (by decide) (by decide) (by decide) (by decide)
    (by decide) (by decide) (by decide)

/-- C12 (as stated, refuted): a patch cut off inside the length field, inside
the offset field (after a complete record), inside the RLE run-length field,
before the fill byte of an RLE record with run length 0, or inside the payload
of a literal record whose offset is 0x454F46, is applied with success. -/
theorem ips_patch_truncated_header_accepted :
    ((Record.literal 1 [0xAA]).WellFormed
        ∧ (Record.literal 1 [0xAA]).encode = [0, 0, 1, 0] ++ [1, 0xAA]
        ∧ 9 ≤ (PATCH_MAGIC ++ [0, 0, 1, 0]).length
        ∧ ips_patch (some [1, 2]) [(1 : UInt8), 2].length (some [7]) [(7 : UInt8)].length
            (some (PATCH_MAGIC ++ [0, 0, 1, 0])) (PATCH_MAGIC ++ [0, 0, 1, 0]).length
            = some (true, some [7, 2]))
      ∧ ((Record.literal 1 [0xAA]).WellFormed
        ∧ (Record.literal 1 [0xAA]).encode = [0, 0] ++ [1, 0, 1, 0xAA]
        ∧ ips_patch (some [1, 2]) [(1 : UInt8), 2].length (some [7]) [(7 : UInt8)].length
            (some (PATCH_MAGIC ++ encodeAll [Record.literal 1 [0xAA]] ++ [0, 0]))
            (PATCH_MAGIC ++ encodeAll [Record.literal 1 [0xAA]] ++ [0, 0]).length
            = some (true, some [7, 0xAA]))
      ∧ ((Record.rle 1 1 0x7F).WellFormed
        ∧ (Record.rle 1 1 0x7F).encode = [0, 0, 1, 0, 0, 0] ++ [1, 0x7F]
        ∧ ips_patch (some [1, 2]) [(1 : UInt8), 2].length (some [7]) [(7 : UInt8)].length
            (some (PATCH_MAGIC ++ [0, 0, 1, 0, 0, 0])) (PATCH_MAGIC ++ [0, 0, 1, 0, 0, 0]).length
            = some (true, some [7, 2]))
      ∧ ((Record.rle 1 0 0x7F).WellFormed
        ∧ (Record.rle 1 0 0x7F).encode = [0, 0, 1, 0, 0, 0, 0] ++ [0x7F]
        ∧ ips_patch (some [1, 2]) [(1 : UInt8), 2].length (some [7]) [(7 : UInt8)].length
            (some (PATCH_MAGIC ++ [0, 0, 1, 0, 0, 0, 0]))
            (PATCH_MAGIC ++ [0, 0, 1, 0, 0, 0, 0]).length
            = some (true, some [7, 2]))
      ∧ ((Record.literal 0x454F46 [0xAA, 0xBB, 0xCC]).WellFormed
        ∧ (Record.literal 0x454F46 [0xAA, 0xBB, 0xCC]).encode
            = [0x45, 0x4F, 0x46, 0, 3, 0xAA] ++ [0xBB, 0xCC]
        ∧ ips_patch (some [1, 2]) [(1 : UInt8), 2].length (some [7]) [(7 : UInt8)].length
            (some (PATCH_MAGIC ++ [0x45, 0x4F, 0x46, 0, 3, 0xAA]))
            (PATCH_MAGIC ++ [0x45, 0x4F, 0x46, 0, 3, 0xAA]).length
            = some (true, some [7, 2])) := by
  decide

/-- C12 (amended): on a patch of length in [9, 16 MiB] made of the header,
well-formed records with no offset equal to 0x454F46, and a proper prefix `t` of
the encoding of a well-formed record that writes at least one byte, whose
offset is not 0x454F46 and whose offset and length fields are complete in `t`
(so the cut is inside a literal payload or before the RLE fill byte),
`ips_patch` returns failure. -/
theorem ips_patch_truncated_record (dst src : List UInt8) (rs : List Record) (r : Record)
    (t suffix : List UInt8) (hd : dst ≠ []) (hs : src ≠ [])
    (hmin : 9 ≤ (PATCH_MAGIC ++ encodeAll rs ++ t).length)
    (hmax : (PATCH_MAGIC ++ encodeAll rs ++ t).length ≤ 0x1000000)
    (hwf : ∀ x ∈ rs, x.WellFormed ∧ x.offset ≠ EOF_MAGIC)
    (hr : r.WellFormed) (henc : r.encode = t ++ suffix) (hsuf : suffix ≠ [])
    (hhead : r.headerLen ≤ t.length) (hne : r.offset ≠ EOF_MAGIC) (hlen : r.len ≠ 0) :
    ∃ d, ips_patch (some dst) dst.length (some src) src.length
        (some (PATCH_MAGIC ++ encodeAll rs ++ t)) (PATCH_MAGIC ++ encodeAll rs ++ t).length
      = some (false, some d) :=
  ips_patch_truncated_fails dst src rs r t suffix hd hs hmin hmax hwf hr henc hsuf hhead hne hlen

theorem ips_patch_truncated_record_witness :
    ∃ d, ips_patch (some [1, 2, 3]) [(1 : UInt8), 2, 3].length (some [9]) [(9 : UInt8)].length
        (some (PATCH_MAGIC ++ encodeAll [Record.literal 0 [0xAA]] ++ [0, 0, 1, 0, 0, 0, 2]))
        (PATCH_MAGIC ++ encodeAll [Record.literal 0 [0xAA]] ++ [0, 0, 1, 0, 0, 0, 2]).length
      = some (false, some d) :=
  ips_patch_truncated_record [1, 2, 3] [9] [Record.literal 0 [0xAA]] (Record.rle 1 2 0x7F)
    [0, 0, 1, 0, 0, 0, 2] [0x7F] (by decide) (by decide) (by decide) (by decide) (by decide)
    (by decide) (by decide) (by decide) (by decide) (by decide) (by decide)

/-- C13 (as stated, refuted): the patch "PATCH" + "EOF" has 8 bytes, below the
minimum of 9, so `ips_patch` returns false before the seed copy: destination
byte 0 stays 1 although source byte 0 is 0. -/
theorem ips_patch_zero_records_not_seeded :
    (PATCH_MAGIC ++ EOF_MARKER).length = 8
      ∧ ips_patch (some [1, 2]) [(1 : UInt8), 2].length (some [0]) [(0 : UInt8)].length
          (some (PATCH_MAGIC ++ EOF_MARKER)) (PATCH_MAGIC ++ EOF_MARKER).length
          = some (false, some [1, 2])
      ∧ [(1 : UInt8), 2][0]? ≠ [(0 : UInt8)][0]? := by
  decide

/-- C13 (amended): for the patch "PATCH" + "EOF", `ips_get_size` returns size 0,
and `ips_patch` returns failure for every source and destination and leaves the
destination as the caller supplied it. -/
theorem ips_zero_record_patch (dst src : List UInt8) :
    ips_get_size (PATCH_MAGIC ++ EOF_MARKER) (PATCH_MAGIC ++ EOF_MARKER).length = some (true, 0)
      ∧ ips_patch (some dst) dst.length (some src) src.length
          (some (PATCH_MAGIC ++ EOF_MARKER)) (PATCH_MAGIC ++ EOF_MARKER).length
          = some (false, some dst) := by
  refine ⟨by decide, ?_⟩
  unfold ips_patch
  simp only
  split <;> rfl

/-- C14 (as stated, refuted): a first literal record at offset 0x454F46 is read
as the end marker: with a destination of 0x454F46 + 1 bytes and a 2-byte
payload, `ips_patch` returns true and byte 0x454F46 is not written. -/
theorem ips_patch_literal_at_marker_offset :
    0x454F46 < (List.replicate 4542279 (0 : UInt8)).length
      ∧ (List.replicate 4542279 (0 : UInt8)).length < 0x454F46 + [(0xAA : UInt8), 0xBB].length
      ∧ ips_patch (some (List.replicate 4542279 0)) (List.replicate 4542279 (0 : UInt8)).length
          (some (List.replicate 4542279 0)) (List.replicate 4542279 (0 : UInt8)).length
          (some (PATCH_MAGIC ++ be3 0x454F46 ++ be2 2 ++ [0xAA, 0xBB] ++ EOF_MARKER))
          (PATCH_MAGIC ++ be3 0x454F46 ++ be2 2 ++ [0xAA, 0xBB] ++ EOF_MARKER).length
          = some (true, some (List.replicate 4542279 0))
      ∧ (List.replicate 4542279 (0 : UInt8))[0x454F46 + 0]? ≠ [(0xAA : UInt8), 0xBB][0]? := by
  have hp : PATCH_MAGIC ++ be3 0x454F46 ++ be2 2 ++ [0xAA, 0xBB] ++ EOF_MARKER
      = PATCH_MAGIC ++ EOF_MARKER ++ (be2 2 ++ [0xAA, 0xBB] ++ EOF_MARKER) := by
    decide
  have hne : List.replicate 4542279 (0 : UInt8) ≠ [] := by
    intro h
    have := congrArg List.length h
    rw [List.length_replicate] at this
    exact absurd this (by decide)
  have hget : (List.replicate 4542279 (0 : UInt8))[0x454F46 + 0]? = some 0 := by
    rw [List.getElem?_replicate, if_pos (by decide)]
  have hrun := ips_patch_marker_first _ _ (be2 2 ++ [0xAA, 0xBB] ++ EOF_MARKER) hne hne
    (by decide) (by decide)
  rw [seed_of_le _ _ (Nat.le_refl _), ← hp] at hrun
  refine ⟨by rw [List.length_replicate]; decide, by rw [List.length_replicate]; decide, hrun, ?_⟩
  rw [hget]; decide

/-- C14 (amended): when the first record is a literal record with an offset `k`
other than 0x454F46 and its full payload, and the destination length `d`
satisfies `k < d < k + L`, `ips_patch` returns failure and the destination
holds the first `d - k` payload bytes from index `k` on. -/
theorem ips_patch_partial_write (dst src : List UInt8) (k : Nat) (payload rest : List UInt8)
    (hs : src ≠ [])
    (hmin : 9 ≤ (PATCH_MAGIC ++ be3 k ++ be2 payload.length ++ payload ++ rest).length)
    (hmax : (PATCH_MAGIC ++ be3 k ++ be2 payload.length ++ payload ++ rest).length ≤ 0x1000000)
    (hk : k < 0x1000000) (hkm : k ≠ 0x454F46) (hL : payload.length < 0x10000)
    (h1 : k < dst.length) (h2 : dst.length < k + payload.length) :
    ∃ d, ips_patch (some dst) dst.length (some src) src.length
          (some (PATCH_MAGIC ++ be3 k ++ be2 payload.length ++ payload ++ rest))
          (PATCH_MAGIC ++ be3 k ++ be2 payload.length ++ payload ++ rest).length
          = some (false, some d)
      ∧ d.length = dst.length
      ∧ ∀ j, j < dst.length - k → d[k + j]? = payload[j]? := by
  have hp : PATCH_MAGIC ++ be3 k ++ be2 payload.length ++ payload ++ rest
      = PATCH_MAGIC ++ encodeAll [Record.literal k payload] ++ rest := by
    simp only [encodeAll, Record.encode, List.append_assoc, List.append_nil]
  have hd : dst ≠ [] := by
    rintro rfl
    simp at h1
  have hwf : ∀ r ∈ [Record.literal k payload], r.WellFormed ∧ r.offset ≠ EOF_MAGIC := by
    intro r hr
    rw [List.mem_singleton] at hr
    subst hr
    exact ⟨⟨hk, by omega, hL⟩, hkm⟩
  have hfu : FollowedUp [Record.literal k payload] rest :=
    ⟨fun o n v h => (by cases h), trivial⟩
  rw [hp] at hmin hmax ⊢
  obtain ⟨f, po, _, hrun⟩ := ips_patch_after_records dst src _ rest hd hs hmin hmax hwf hfu
  have hnofit : ¬ (payload = [] ∨ k + payload.length ≤ (seed dst src).length) := by
    rw [length_seed]
    rintro (h0 | h0)
    · rw [h0] at h2; simp at h2; omega
    · omega
  have hchk : applyChecked [Record.literal k payload] (seed dst src)
      = (false, writeAt (seed dst src) k (payload.take (dst.length - k))) := by
    simp only [applyChecked, Record.offset, Record.bytes, writeChecked_eq]
    rw [if_neg hnofit, length_seed]
  have hfit : k + (payload.take (dst.length - k)).length ≤ (seed dst src).length := by
    rw [length_seed, List.length_take]
    omega
  rw [hrun, hchk]
  refine ⟨_, rfl, ?_, ?_⟩
  · rw [length_writeAt _ _ _ (Or.inr hfit), length_seed]
  · intro j hj
    have hlt : (payload.take (dst.length - k)).length = dst.length - k := by
      rw [List.length_take]; omega
    rw [getElem?_writeAt _ _ _ _ hfit, if_neg (by omega), hlt, if_pos (by omega),
      List.getElem?_take, if_pos (by omega)]
    congr 1
    omega

theorem ips_patch_partial_write_witness :
    ∃ d, ips_patch (some [1, 2, 3]) [(1 : UInt8), 2, 3].length (some [9]) [(9 : UInt8)].length
          (some (PATCH_MAGIC ++ be3 1 ++ be2 [(0xAA : UInt8), 0xBB, 0xCC].length
            ++ [0xAA, 0xBB, 0xCC] ++ EOF_MARKER))
          (PATCH_MAGIC ++ be3 1 ++ be2 [(0xAA : UInt8), 0xBB, 0xCC].length
            ++ [0xAA, 0xBB, 0xCC] ++ EOF_MARKER).length
          = some (false, some d)
      ∧ d.length = [(1 : UInt8), 2, 3].length
      ∧ ∀ j, j < [(1 : UInt8), 2, 3].length - 1 → d[1 + j]? = [(0xAA : UInt8), 0xBB, 0xCC][j]? :=
  ips_patch_partial_write [1, 2, 3] [9] 1 [0xAA, 0xBB, 0xCC] EOF_MARKER (by decide) (by decide)
    (by decide) (by decide) (by decide) (by decide) (by decide) (by decide)

/-- C15: `ips_get_size` returns success and a size on every byte sequence and
every size argument, and the size is 0 when there is no byte after the 5-byte
header. -/
theorem ips_get_size_never_fails (patch : List UInt8) (patch_size : Nat) :
    ∃ n, ips_get_size patch patch_size = some (true, n) ∧ (patch_size ≤ 5 → n = 0) := by
  obtain ⟨n, hn⟩ := ips_get_size_total patch patch_size
  refine ⟨n, hn, ?_⟩
  intro h5
  have h0 : ips_get_size patch patch_size = some (true, 0) := by
    unfold ips_get_size
    rw [ips_get_size_loop, if_neg (by unfold PATCH_HEADER_SIZE; omega)]
    rfl
  rw [h0] at hn
  cases hn
  rfl

/-- C16: for the 16-byte patch with one literal record (offset 0, payload
0xAA 0xBB 0xCC) and a source of 10 zero bytes, `ips_get_size` returns 3 and
`ips_patch` into any 3-byte destination returns true and leaves the payload. -/
theorem ips_concrete_literal (a b c : UInt8) :
    ips_get_size (PATCH_MAGIC ++ [0x00, 0x00, 0x00] ++ [0x00, 0x03] ++ [0xAA, 0xBB, 0xCC]
        ++ EOF_MARKER) 16 = some (true, 3)
      ∧ ips_patch (some [a, b, c]) 3 (some (List.replicate 10 0)) 10
          (some (PATCH_MAGIC ++ [0x00, 0x00, 0x00] ++ [0x00, 0x03] ++ [0xAA, 0xBB, 0xCC]
            ++ EOF_MARKER)) 16
          = some (true, some [0xAA, 0xBB, 0xCC]) := by
  refine ⟨by decide, ?_⟩
  have hp : PATCH_MAGIC ++ [0x00, 0x00, 0x00] ++ [0x00, 0x03] ++ [0xAA, 0xBB, 0xCC] ++ EOF_MARKER
      = PATCH_MAGIC ++ encodeAll [Record.literal 0 [0xAA, 0xBB, 0xCC]] ++ EOF_MARKER := by
    decide
  have key := ips_patch_stream [a, b, c] (List.replicate 10 0)
    [Record.literal 0 [0xAA, 0xBB, 0xCC]] EOF_MARKER (by simp) (by decide) (by decide)
    (by decide) (by decide) (Or.inr ⟨[], by simp⟩) (followedUp_marker _)
  rw [← hp] at key
  have hseed : seed [a, b, c] (List.replicate 10 0) = [a, b, c] := by
    simp [seed]
  have hres : applyChecked [Record.literal 0 [0xAA, 0xBB, 0xCC]] [a, b, c]
      = (true, [0xAA, 0xBB, 0xCC]) := by
    simp [applyChecked, writeChecked, Record.offset, Record.bytes]
  rw [hseed, hres] at key
  exact key

/-- C17 (as stated, refuted): with a 1-byte all-zero source and a destination of
nine bytes 1, the seed copy covers index 0 only, and bytes 1 to 4 of the final
destination are 1, not 0. -/
theorem ips_concrete_rle_not_zeroed :
    (∀ b ∈ [(0 : UInt8)], b = 0)
      ∧ 9 ≤ [(1 : UInt8), 1, 1, 1, 1, 1, 1, 1, 1].length
      ∧ ips_patch (some [1, 1, 1, 1, 1, 1, 1, 1, 1]) [(1 : UInt8), 1, 1, 1, 1, 1, 1, 1, 1].length
          (some [0]) [(0 : UInt8)].length
          (some (PATCH_MAGIC ++ [0x00, 0x00, 0x05] ++ [0x00, 0x00] ++ [0x00, 0x04] ++ [0x7F]
            ++ EOF_MARKER))
          (PATCH_MAGIC ++ [0x00, 0x00, 0x05] ++ [0x00, 0x00] ++ [0x00, 0x04] ++ [0x7F]
            ++ EOF_MARKER).length
          = some (true, some [0, 1, 1, 1, 1, 0x7F, 0x7F, 0x7F, 0x7F])
      ∧ [(0 : UInt8), 1, 1, 1, 1, 0x7F, 0x7F, 0x7F, 0x7F][1]? ≠ some 0 := by
  decide

/-- C17 (amended): for the patch with one RLE record (offset 5, run 4, fill
0x7F), a non-empty all-zero source and a destination of at least 9 bytes,
`ips_patch` returns true, bytes 5 to 8 are 0x7F, and a byte at an index below 5
is 0 where the seed copy covers it (source shorter than the destination, index
below the source length) and the caller's byte otherwise. -/
theorem ips_concrete_rle (dst src : List UInt8) (hs : src ≠ []) (hz : ∀ b ∈ src, b = 0)
    (hd : 9 ≤ dst.length) :
    ∃ d, ips_patch (some dst) dst.length (some src) src.length
          (some (PATCH_MAGIC ++ [0x00, 0x00, 0x05] ++ [0x00, 0x00] ++ [0x00, 0x04] ++ [0x7F]
            ++ EOF_MARKER))
          (PATCH_MAGIC ++ [0x00, 0x00, 0x05] ++ [0x00, 0x00] ++ [0x00, 0x04] ++ [0x7F]
            ++ EOF_MARKER).length
          = some (true, some d)
      ∧ d.length = dst.length
      ∧ (∀ i, 5 ≤ i → i < 9 → d[i]? = some 0x7F)
      ∧ (∀ i, i < 5 →
          d[i]? = if src.length < dst.length ∧ i < src.length then some 0 else dst[i]?) := by
  have hp : PATCH_MAGIC ++ [0x00, 0x00, 0x05] ++ [0x00, 0x00] ++ [0x00, 0x04] ++ [0x7F]
      ++ EOF_MARKER = PATCH_MAGIC ++ encodeAll [Record.rle 5 4 0x7F] ++ EOF_MARKER := by
    decide
  have hdne : dst ≠ [] := by
    rintro rfl
    simp at hd
  have hfit : 5 + (List.replicate 4 (0x7F : UInt8)).length ≤ (seed dst src).length := by
    rw [length_seed, List.length_replicate]; omega
  refine ⟨writeAt (seed dst src) 5 (List.replicate 4 0x7F), ?_, ?_, ?_, ?_⟩
  · rw [hp, ips_patch_stream dst src _ EOF_MARKER hdne hs (by decide) (by decide) (by decide)
      (Or.inr ⟨[], by simp⟩) (followedUp_marker _),
      applyChecked_fit _ _ (fun r hr => by
        rw [List.mem_singleton] at hr
        subst hr
        exact Or.inr hfit)]
    rfl
  · rw [length_writeAt _ _ _ (Or.inr hfit), length_seed]
  · intro i h1 h2
    rw [getElem?_writeAt _ _ _ _ hfit, if_neg (by omega), List.length_replicate,
      if_pos (by omega), List.getElem?_replicate, if_pos (by omega)]
  · intro i hi
    rw [getElem?_writeAt _ _ _ _ hfit, if_pos hi, getElem?_seed]
    by_cases hc : src.length < dst.length ∧ i < src.length
    · rw [if_pos hc, if_pos hc, List.getElem?_eq_getElem hc.2]
      exact congrArg some (hz _ (List.getElem_mem _))
    · rw [if_neg hc, if_neg hc]

theorem ips_concrete_rle_witness :
    ∃ d, ips_patch (some [1, 1, 1, 1, 1, 1, 1, 1, 1]) [(1 : UInt8), 1, 1, 1, 1, 1, 1, 1, 1].length
          (some [0, 0, 0, 0, 0, 0]) [(0 : UInt8), 0, 0, 0, 0, 0].length
          (some (PATCH_MAGIC ++ [0x00, 0x00, 0x05] ++ [0x00, 0x00] ++ [0x00, 0x04] ++ [0x7F]
            ++ EOF_MARKER))
          (PATCH_MAGIC ++ [0x00, 0x00, 0x05] ++ [0x00, 0x00] ++ [0x00, 0x04] ++ [0x7F]
            ++ EOF_MARKER).length
          = some (true, some d)
      ∧ d.length = [(1 : UInt8), 1, 1, 1, 1, 1, 1, 1, 1].length
      ∧ (∀ i, 5 ≤ i → i < 9 → d[i]? = some 0x7F)
      ∧ (∀ i, i < 5 →
          d[i]? = if [(0 : UInt8), 0, 0, 0, 0, 0].length
                < [(1 : UInt8), 1, 1, 1, 1, 1, 1, 1, 1].length
              ∧ i < [(0 : UInt8), 0, 0, 0, 0, 0].length then some 0
            else [(1 : UInt8), 1, 1, 1, 1, 1, 1, 1, 1][i]?) :=
  ips_concrete_rle [1, 1, 1, 1, 1, 1, 1, 1, 1] [0, 0, 0, 0, 0, 0] (by decide) (by decide)
    (by decide)

/-- C18: `safe_read2` and `safe_read3` always leave the cursor at `c + 2` and
`c + 3`; each returns 0 when the new cursor is above the buffer length and the
big-endian value of the bytes at the old cursor otherwise; `safe_read` returns
the byte and advances by 1 when `c` is below the length, and returns 0 with the
cursor unchanged otherwise. -/
theorem safe_read_contract (b : List UInt8) (c : Nat) :
    (safe_read2 b c b.length).2 = c + 2
      ∧ (b.length < c + 2 → (safe_read2 b c b.length).1 = 0)
      ∧ (∀ h : c + 2 ≤ b.length, (safe_read2 b c b.length).1
          = (((b.get ⟨c, by omega⟩).toNat <<< 8) ||| (b.get ⟨c + 1, by omega⟩).toNat))
      ∧ (safe_read3 b c b.length).2 = c + 3
      ∧ (b.length < c + 3 → (safe_read3 b c b.length).1 = 0)
      ∧ (∀ h : c + 3 ≤ b.length, (safe_read3 b c b.length).1
          = (((b.get ⟨c, by omega⟩).toNat <<< 16) ||| ((b.get ⟨c + 1, by omega⟩).toNat <<< 8)
            ||| (b.get ⟨c + 2, by omega⟩).toNat))
      ∧ (∀ h : c < b.length, safe_read b c b.length = (b.get ⟨c, h⟩, c + 1))
      ∧ (b.length ≤ c → safe_read b c b.length = (0, c)) := by
  have hget : ∀ i (h : i < b.length), b.getD i 0 = b.get ⟨i, h⟩ := by
    intro i h
    rw [List.getD_eq_getElem _ _ h]
    rfl
  refine ⟨safe_read2_snd b c _, ?_, ?_, safe_read3_snd b c _, ?_, ?_, ?_, ?_⟩
  · intro h
    unfold safe_read2
    simp only
    rw [if_pos (by omega)]
  · intro h
    unfold safe_read2
    simp only
    rw [if_neg (by omega), show c + 2 - 2 = c by omega, show c + 2 - 1 = c + 1 by omega,
      hget c (by omega), hget (c + 1) (by omega)]
  · intro h
    unfold safe_read3
    simp only
    rw [if_pos (by omega)]
  · intro h
    unfold safe_read3
    simp only
    rw [if_neg (by omega), show c + 3 - 3 = c by omega, show c + 3 - 2 = c + 1 by omega,
      show c + 3 - 1 = c + 2 by omega, hget c (by omega), hget (c + 1) (by omega),
      hget (c + 2) (by omega)]
  · intro h
    unfold safe_read
    rw [if_pos h, hget c h]
  · intro h
    unfold safe_read
    rw [if_neg (by omega)]

/-- C19: for a given patch and destination size there are a boolean and a list
of in-bounds byte writes such that, for every destination of that size and
every two non-empty sources at least as long as it, `ips_patch` returns that
boolean with either source and leaves the caller's destination with those
writes applied; a byte at an index that no write names keeps the caller's
value. -/
theorem ips_patch_source_ignored (patch : Option (List UInt8)) (patch_size dst_size : Nat) :
    ∃ (b : Bool) (ws : List (Nat × UInt8)), (∀ w ∈ ws, w.1 < dst_size) ∧
      ∀ dst s1 s2 : List UInt8, dst.length = dst_size → s1 ≠ [] → s2 ≠ [] →
        dst_size ≤ s1.length → dst_size ≤ s2.length →
        ips_patch (some dst) dst_size (some s1) s1.length patch patch_size
            = some (b, some (applyWrites ws dst))
          ∧ ips_patch (some dst) dst_size (some s2) s2.length patch patch_size
            = some (b, some (applyWrites ws dst))
          ∧ (applyWrites ws dst).length = dst.length
          ∧ ∀ i, (∀ w ∈ ws, w.1 ≠ i) → (applyWrites ws dst)[i]? = dst[i]? := by
  obtain ⟨b, ws, hb, hw⟩ := ips_patch_writes patch patch_size dst_size
  exact ⟨b, ws, hb, fun dst s1 s2 hd h1 h2 hl1 hl2 =>
    ⟨hw dst s1 hd h1 hl1, hw dst s2 hd h2 hl2, length_applyWrites ws dst,
      fun i hi => getElem?_applyWrites ws dst i hi⟩⟩

theorem ips_patch_source_ignored_witness :
    ∃ (b : Bool) (ws : List (Nat × UInt8)), (∀ w ∈ ws, w.1 < 3) ∧
      ips_patch (some [1, 2, 3]) 3 (some [7, 7, 7]) [(7 : UInt8), 7, 7].length
          (some (mkPatch [Record.literal 1 [0xAA]])) (mkPatch [Record.literal 1 [0xAA]]).length
          = some (b, some (applyWrites ws [1, 2, 3]))
        ∧ ips_patch (some [1, 2, 3]) 3 (some [8, 8, 8, 8]) [(8 : UInt8), 8, 8, 8].length
          (some (mkPatch [Record.literal 1 [0xAA]])) (mkPatch [Record.literal 1 [0xAA]]).length
          = some (b, some (applyWrites ws [1, 2, 3]))
        ∧ (applyWrites ws [1, 2, 3]).length = [(1 : UInt8), 2, 3].length
        ∧ ∀ i, (∀ w ∈ ws, w.1 ≠ i) → (applyWrites ws [1, 2, 3])[i]? = [(1 : UInt8), 2, 3][i]? := by
  obtain ⟨b, ws, hb, h⟩ := ips_patch_source_ignored (some (mkPatch [Record.literal 1 [0xAA]]))
    (mkPatch [Record.literal 1 [0xAA]]).length 3
  exact ⟨b, ws, hb, h [1, 2, 3] [7, 7, 7] [8, 8, 8, 8] rfl (by decide) (by decide) (by decide)
    (by decide)⟩

/-- C20: the bytes after the end marker that follows well-formed records (no
offset equal to 0x454F46) are ignored: with any `X` and `Y` after the marker,
`ips_get_size` returns the maximum over the records alone, and `ips_patch`,
when both patches have a length in [9, 16 MiB], returns the same boolean and
the same final destination for every source and destination. -/
theorem ips_after_marker_ignored (rs : List Record) (X Y : List UInt8)
    (hwf : ∀ r ∈ rs, r.WellFormed ∧ r.offset ≠ EOF_MAGIC) :
    (ips_get_size (PATCH_MAGIC ++ encodeAll rs ++ [0x45, 0x4F, 0x46] ++ X)
          (PATCH_MAGIC ++ encodeAll rs ++ [0x45, 0x4F, 0x46] ++ X).length = some (true, maxEnd rs)
        ∧ ips_get_size (PATCH_MAGIC ++ encodeAll rs ++ [0x45, 0x4F, 0x46] ++ Y)
          (PATCH_MAGIC ++ encodeAll rs ++ [0x45, 0x4F, 0x46] ++ Y).length = some (true, maxEnd rs))
      ∧ ∀ dst src : List UInt8,
          9 ≤ (PATCH_MAGIC ++ encodeAll rs ++ [0x45, 0x4F, 0x46] ++ X).length →
          (PATCH_MAGIC ++ encodeAll rs ++ [0x45, 0x4F, 0x46] ++ X).length ≤ 0x1000000 →
          9 ≤ (PATCH_MAGIC ++ encodeAll rs ++ [0x45, 0x4F, 0x46] ++ Y).length →
          (PATCH_MAGIC ++ encodeAll rs ++ [0x45, 0x4F, 0x46] ++ Y).length ≤ 0x1000000 →
          ∃ b d,
            ips_patch (some dst) dst.length (some src) src.length
                (some (PATCH_MAGIC ++ encodeAll rs ++ [0x45, 0x4F, 0x46] ++ X))
                (PATCH_MAGIC ++ encodeAll rs ++ [0x45, 0x4F, 0x46] ++ X).length
                = some (b, some d)
              ∧ ips_patch (some dst) dst.length (some src) src.length
                (some (PATCH_MAGIC ++ encodeAll rs ++ [0x45, 0x4F, 0x46] ++ Y))
                (PATCH_MAGIC ++ encodeAll rs ++ [0x45, 0x4F, 0x46] ++ Y).length
                = some (b, some d) := by
  have hp : ∀ Z : List UInt8, PATCH_MAGIC ++ encodeAll rs ++ [0x45, 0x4F, 0x46] ++ Z
      = PATCH_MAGIC ++ encodeAll rs ++ (EOF_MARKER ++ Z) := by
    intro Z
    simp only [EOF_MARKER, List.append_assoc]
  rw [hp X, hp Y]
  refine ⟨⟨ips_get_size_stream rs _ hwf (Or.inr ⟨X, rfl⟩),
    ips_get_size_stream rs _ hwf (Or.inr ⟨Y, rfl⟩)⟩, ?_⟩
  intro dst src hx1 hx2 hy1 hy2
  by_cases he : dst = [] ∨ src = []
  · exact ⟨false, dst, ips_patch_of_empty dst src _ _ he, ips_patch_of_empty dst src _ _ he⟩
  · have hd : dst ≠ [] := fun h => he (Or.inl h)
    have hs : src ≠ [] := fun h => he (Or.inr h)
    exact ⟨(applyChecked rs (seed dst src)).1, (applyChecked rs (seed dst src)).2,
      ips_patch_stream dst src rs _ hd hs hx1 hx2 hwf (Or.inr ⟨X, rfl⟩)
        (followedUp_of_ne_nil _ (by simp [EOF_MARKER]) rs),
      ips_patch_stream dst src rs _ hd hs hy1 hy2 hwf (Or.inr ⟨Y, rfl⟩)
        (followedUp_of_ne_nil _ (by simp [EOF_MARKER]) rs)⟩

theorem ips_after_marker_ignored_witness :
    ips_get_size (PATCH_MAGIC ++ encodeAll [Record.literal 1 [0xAA]] ++ [0x45, 0x4F, 0x46]
          ++ [0, 2, 9, 9])
        (PATCH_MAGIC ++ encodeAll [Record.literal 1 [0xAA]] ++ [0x45, 0x4F, 0x46]
          ++ [0, 2, 9, 9]).length = some (true, maxEnd [Record.literal 1 [0xAA]])
      ∧ ips_get_size (PATCH_MAGIC ++ encodeAll [Record.literal 1 [0xAA]] ++ [0x45, 0x4F, 0x46]
          ++ [])
        (PATCH_MAGIC ++ encodeAll [Record.literal 1 [0xAA]] ++ [0x45, 0x4F, 0x46]
          ++ []).length = some (true, maxEnd [Record.literal 1 [0xAA]]) :=
  (ips_after_marker_ignored [Record.literal 1 [0xAA]] [0, 2, 9, 9] [] (by decide)).1

end Ips
